import Mathlib

/-!
Verification of the BumbleBase storage engine core against its
natural-language specification.  Each namespace shallowly embeds one Go
subsystem (waits-for graph and transaction manager, extendible hash index,
B+-tree index, pager, recovery manager) and the theorems at the end of the
file prove or refute the frozen claims about it.  Go slices and maps are
modelled by Lean lists and association lists; fixed-size page buffers are
modelled by total functions from slot index to content; `int64` values are
modelled by `Int` (no claim here depends on 64-bit wraparound and all
concrete inputs are tiny).  Go functions whose recursion is not structurally
bounded (the extendible-hash `Split`, the tree descent and the cursor loops)
take an explicit fuel argument; exhausting the fuel returns `none`, which
marks divergence and is distinguished from the program's own error returns.
-/

namespace ConcM

/-- Transactions are identified by their client id; the Go code compares
`*Transaction` pointers, and distinct live transactions have distinct ids. -/
abbrev TId := Nat

/-- Edge of the waits-for graph, `(from, to)`: from waits for to.
Mirrors `Edge{from, to}` of deadlock.go. -/
abbrev GEdge := TId × TId

/-- Waits-for graph: `Graph{edges []Edge}` of deadlock.go. -/
structure Graph where
  edges : List GEdge
deriving Repr, DecidableEq

/-- Embeds `Graph.AddEdge` (deadlock.go): append the edge to the slice. -/
def addEdge (g : Graph) (f t : TId) : Graph :=
  { edges := g.edges ++ [(f, t)] }

/-- Embeds `removeEdge(l []Edge, i int)` (deadlock.go:161): overwrite slot `i`
with the last element and drop the last slot.  Only called with `i` in range
and the list nonempty; the `getD` default is never read there. -/
def swapRemove (l : List GEdge) (i : Nat) : List GEdge :=
  (l.set i (l.getLast?.getD (0, 0))).dropLast

/-- Embeds the search loop of `Graph.RemoveEdge`: index of the first edge
equal to `toRemove`. -/
def findEdgeIdx (l : List GEdge) (e : GEdge) : Option Nat :=
  match l with
  | [] => none
  | x :: xs => if x = e then some 0 else (findEdgeIdx xs e).map (· + 1)

/-- Embeds `Graph.RemoveEdge` (deadlock.go:53): remove the first copy of the
edge via `removeEdge`, or report "edge not found". -/
def removeEdge (g : Graph) (f t : TId) : Except String Graph :=
  match findEdgeIdx g.edges (f, t) with
  | some i => Except.ok { edges := swapRemove g.edges i }
  | none => Except.error "edge not found"

/-- A deferred `RemoveEdge` call: the Go code discards its error return. -/
def removeEdgeD (l : List GEdge) (e : GEdge) : List GEdge :=
  match findEdgeIdx l e with
  | some i => swapRemove l i
  | none => l

/-- The deferred `RemoveEdge` calls registered by `TransactionManager.Lock`
run in LIFO order on every return path (Go `defer` semantics): the edge
added last is removed first. -/
def runDefers (g : Graph) (added : List GEdge) : Graph :=
  ⟨added.foldr (fun e acc => removeEdgeD acc e) g.edges⟩

/-- Record a transaction in the first-occurrence list if it is new
(`if _, found := idxMap[e.x]; !found { idxMap[e.x] = len(idxMap) }`). -/
def addFirst (acc : List TId) (t : TId) : List TId :=
  if t ∈ acc then acc else acc ++ [t]

/-- One step of the `idxMap` construction of `Graph.DetectCycle`
(deadlock.go:72): record each endpoint of the edge on first occurrence. -/
def orderStep (acc : List TId) (e : GEdge) : List TId :=
  addFirst (addFirst acc e.1) e.2

/-- Embeds the `idxMap` construction of `Graph.DetectCycle`: the Go map
assigns each transaction its first-occurrence ordinal, which is its index in
this first-occurrence list. -/
def buildOrder (edges : List GEdge) : List TId :=
  edges.foldl orderStep []

/-- One step of the adjacency-list construction of `Graph.DetectCycle`
(deadlock.go:86). -/
def adjStep (order : List TId) (g : List (List Nat)) (e : GEdge) :
    List (List Nat) :=
  let fi := order.indexOf e.1
  let ti := order.indexOf e.2
  g.set fi (g.getD fi [] ++ [ti])

/-- Embeds the adjacency-list construction of `Graph.DetectCycle`. -/
def buildAdj (edges : List GEdge) (order : List TId) : List (List Nat) :=
  edges.foldl (adjStep order) (List.replicate order.length [])

/-- Embeds `dfs` (deadlock.go:110).  `visited` holds exactly the vertices on
the current path; each neighbour loop iteration restores `visited`, so the
iterations are independent and the loop is an `any`.  The Go function needs
no fuel: it only recurses into freshly visited vertices, so its depth is
bounded by the number of vertices; `detectCycle` passes fuel `n + 1`, which
that bound keeps from ever being exhausted. -/
def dfs (adj : List (List Nat)) : Nat → List Bool → Nat → Bool
  | 0, _, _ => false
  | fuel + 1, visited, u =>
    if u > adj.length then false
    else (adj.getD u []).any (fun v =>
      if visited.getD v false then true
      else dfs adj fuel (visited.set v true) v)

/-- Embeds `Graph.DetectCycle` (deadlock.go:67): try a path-marking DFS from
every vertex. -/
def detectCycle (edges : List GEdge) : Bool :=
  let order := buildOrder edges
  let n := order.length
  let adj := buildAdj edges order
  (List.range n).any (fun u =>
    dfs adj (n + 1) ((List.replicate n false).set u true) u)

/-- Nonempty directed walk through the edge multiset. -/
inductive Walk (E : List GEdge) : TId → TId → Prop
  | single {a b : TId} : (a, b) ∈ E → Walk E a b
  | cons {a b c : TId} : (a, b) ∈ E → Walk E b c → Walk E a c

/-- The mathematical statement "the waits-for graph contains a cycle". -/
def HasCycle (E : List GEdge) : Prop := ∃ v, Walk E v v

/-- Nonempty walk through the index-level adjacency lists. -/
inductive AWalk (adj : List (List Nat)) : Nat → Nat → Prop
  | single {u v : Nat} : v ∈ adj.getD u [] → AWalk adj u v
  | cons {u v w : Nat} : v ∈ adj.getD u [] → AWalk adj v w → AWalk adj u w

/-- Number of unvisited slots; the DFS recursion measure. -/
def countFalse (visited : List Bool) : Nat := visited.count false

/-- Lock modes, `type LockType int` with `R_LOCK` then `W_LOCK` declared by
iota (concurrency's lock manager file; the comparison `curType >= lType` in
transaction.go is the integer order). -/
abbrev LockType := Nat

def R_LOCK : LockType := 0

def W_LOCK : LockType := 1

/-- Resource `{tableName, resourceKey}` of the concurrency package. -/
abbrev Resource := String × Int

/-- Embeds `Transaction`: its map of held resources, as an association
list. -/
structure Txn where
  resources : List (Resource × LockType)
deriving Repr, DecidableEq

/-- Embeds `TransactionManager` (transaction.go:49): the lock manager state
is abstract (`σ`) because lock.go is exercised only through `lm.Lock` and
`lm.Unlock`, which the theorems take as opaque parameters. -/
structure TM (σ : Type) where
  lm : σ
  pGraph : Graph
  transactions : List (TId × Txn)

/-- Go map lookup `tm.transactions[clientId]`. -/
def lookupTxn {σ : Type} (tm : TM σ) (id : TId) : Option Txn :=
  (tm.transactions.find? (fun p => p.1 = id)).map (·.2)

/-- Go map lookup `transaction.resources[r]`. -/
def resourcesGet (t : Txn) (r : Resource) : Option LockType :=
  (t.resources.find? (fun p => p.1 = r)).map (·.2)

/-- Embeds the inner loop of `discoverTransactions` (transaction.go:223):
does this transaction hold `r` in a conflicting mode? -/
def conflictsWith (t : Txn) (r : Resource) (lType : LockType) : Bool :=
  t.resources.any (fun p => decide (p.1 = r ∧ (p.2 = W_LOCK ∨ lType = W_LOCK)))

/-- Embeds `discoverTransactions` (transaction.go:219). -/
def discoverTransactions {σ : Type} (tm : TM σ) (r : Resource)
    (lType : LockType) : List (TId × Txn) :=
  tm.transactions.filter (fun p => conflictsWith p.2 r lType)

/-- The edges `Lock` adds before cycle detection (transaction.go:124): one
edge to each conflicting holder other than the requester itself. -/
def addedEdgesFor {σ : Type} (tm : TM σ) (clientId : TId) (r : Resource)
    (lType : LockType) : List GEdge :=
  ((discoverTransactions tm r lType).filter
    (fun p => decide (p.1 ≠ clientId))).map (fun p => (clientId, p.1))

/-- Go map insert `transaction.resources[r] = lType`, called only when `r`
is absent. -/
def txnAddResource (t : Txn) (r : Resource) (lType : LockType) : Txn :=
  ⟨t.resources ++ [(r, lType)]⟩

/-- Go map update of the transactions table entry for `clientId`. -/
def setTxn (l : List (TId × Txn)) (clientId : TId) (t : Txn) :
    List (TId × Txn) :=
  l.map (fun p => if p.1 = clientId then (clientId, t) else p)

/-- Embeds `TransactionManager.Begin` (transaction.go:80). -/
def beginTxn {σ : Type} (tm : TM σ) (id : TId) : Except String (TM σ) :=
  match lookupTxn tm id with
  | some _ => Except.error "transaction already began"
  | none => Except.ok
      { tm with transactions := tm.transactions ++ [(id, ⟨[]⟩)] }

/-- Go map delete `delete(tm.transactions, clientId)`. -/
def delTxn (l : List (TId × Txn)) (id : TId) : List (TId × Txn) :=
  l.eraseP (fun p => decide (p.1 = id))

/-- Embeds `TransactionManager.Commit` (transaction.go:196); `lmUnlock` is
the opaque `lm.Unlock`.  On an unlock error Go returns with the lock manager
partially updated and the transaction still present; no theorem below
observes that partial state, so the error is returned bare. -/
def commitTxn {σ : Type} (lmUnlock : σ → Resource → LockType → Except String σ)
    (tm : TM σ) (id : TId) : Except String (TM σ) :=
  match lookupTxn tm id with
  | none => Except.error "no transactions running"
  | some t =>
    match t.resources.foldlM (fun s p => lmUnlock s p.1 p.2) tm.lm with
    | Except.error e => Except.error e
    | Except.ok lm' =>
      Except.ok { tm with lm := lm', transactions := delTxn tm.transactions id }

/-- Embeds `TransactionManager.Lock` (transaction.go:92).  `lmLock` is the
opaque `lm.Lock`.  The deferred `RemoveEdge` calls run on every return path
that registered them, so each branch below ends with `runDefers`. -/
def lockTM {σ : Type} (lmLock : σ → Resource → LockType → Except String σ)
    (tm : TM σ) (clientId : TId) (tableName : String) (resourceKey : Int)
    (lType : LockType) : TM σ × Except String Unit :=
  match lookupTxn tm clientId with
  | none => (tm, Except.error "transaction not found")
  | some transaction =>
    let r : Resource := (tableName, resourceKey)
    match resourcesGet transaction r with
    | some curType =>
      if lType ≤ curType then (tm, Except.ok ())
      else (tm, Except.error "illegal lock type")
    | none =>
      let added := addedEdgesFor tm clientId r lType
      let g1 : Graph := ⟨tm.pGraph.edges ++ added⟩
      if detectCycle g1.edges then
        ({ tm with pGraph := runDefers g1 added }, Except.error "contains cycle")
      else
        match lmLock tm.lm r lType with
        | Except.error e =>
          ({ tm with pGraph := runDefers g1 added }, Except.error e)
        | Except.ok lm' =>
          ({ lm := lm', pGraph := runDefers g1 added,
             transactions :=
               setTxn tm.transactions clientId
                 (txnAddResource transaction r lType) }, Except.ok ())

end ConcM

namespace HashIdx

/-- Modelled from the spec: `Hasher(key, depth)` returns the low `depth` bits
of a uniform 64-bit hash of the key (the hash subroutines file is not among
the given sources).  The underlying 64-bit hash `h64` is a parameter of the
development; every theorem holds for an arbitrary `h64`. -/
def Hasher (h64 : Int → Nat) (key : Int) (depth : Nat) : Nat :=
  h64 key % 2 ^ depth

/-- Embeds `HashBucket` (bucket.go:13): local depth, number of keys, and the
cell array of the bucket's page.  The page buffer has a slot at every index;
cells at or beyond `numKeys` hold stale bytes. -/
structure Bucket where
  depth : Nat
  numKeys : Nat
  cells : Nat → Int × Int

/-- Embeds `getKeyAt`. -/
def getKeyAt (b : Bucket) (i : Nat) : Int := (b.cells i).1

/-- Embeds `getValueAt`. -/
def getValueAt (b : Bucket) (i : Nat) : Int := (b.cells i).2

/-- Embeds `updateKeyAt`: write the key slot of cell `i`. -/
def updateKeyAt (b : Bucket) (i : Nat) (k : Int) : Bucket :=
  { b with cells := fun j => if j = i then (k, (b.cells i).2) else b.cells j }

/-- Embeds `updateValueAt`: write the value slot of cell `i`. -/
def updateValueAt (b : Bucket) (i : Nat) (v : Int) : Bucket :=
  { b with cells := fun j => if j = i then ((b.cells i).1, v) else b.cells j }

/-- Embeds `updateNumKeys`. -/
def updateNumKeys (b : Bucket) (n : Nat) : Bucket := { b with numKeys := n }

/-- Embeds `updateDepth`. -/
def updateDepth (b : Bucket) (d : Nat) : Bucket := { b with depth := d }

/-- The live entries of a bucket: cells `0 … numKeys-1`. -/
def bucketEntries (b : Bucket) : List (Int × Int) :=
  (List.range b.numKeys).map b.cells

/-- Embeds `HashBucket.Find` (bucket.go:42): linear scan of the first
`numKeys` cells for the first matching key. -/
def bucketFind (b : Bucket) (key : Int) : Option (Int × Int) :=
  ((List.range b.numKeys).find? (fun i => getKeyAt b i = key)).map b.cells

/-- Embeds `HashBucket.Insert` (bucket.go:56): a full bucket reports
overflow without storing the entry; otherwise the entry is appended.
`BUCKETSIZE` is defined in the hash subroutines file, which is not among the
given sources, so it is a parameter. -/
def bucketInsert (BUCKETSIZE : Nat) (b : Bucket) (key value : Int) :
    Bool × Bucket :=
  if b.numKeys = BUCKETSIZE then (true, b)
  else
    (false,
      updateNumKeys (updateValueAt (updateKeyAt b b.numKeys key) b.numKeys value)
        (b.numKeys + 1))

/-- Embeds `HashBucket.Update` (bucket.go:68). -/
def bucketUpdate (b : Bucket) (key value : Int) : Except String Bucket :=
  match (List.range b.numKeys).find? (fun i => getKeyAt b i = key) with
  | some i => Except.ok (updateValueAt b i value)
  | none => Except.error "Can not update nonexistent key value"

/-- The shift loop of `HashBucket.Delete` (bucket.go:112): move cells
`idx+1 … numKeys-1` one slot left. -/
def bucketDeleteShift (b : Bucket) (idx : Nat) : Bucket :=
  (List.range' (idx + 1) (b.numKeys - (idx + 1))).foldl
    (fun acc i =>
      updateValueAt (updateKeyAt acc (i - 1) (getKeyAt acc i)) (i - 1)
        (getValueAt acc i)) b

/-- Embeds `HashBucket.Delete` (bucket.go:90). -/
def bucketDelete (b : Bucket) (key : Int) : Except String Bucket :=
  match (List.range b.numKeys).find? (fun i => getKeyAt b i = key) with
  | none => Except.error "Can not delete nonexistent key"
  | some idx => Except.ok (updateNumKeys (bucketDeleteShift b idx) (b.numKeys - 1))

/-- Embeds `HashTable` (table.go:15) together with the slice of the pager it
sees: `buckets` is the directory of bucket page numbers, `pages` the pager's
content for each bucket page, `nextPN` the next free page number
(`Pager.GetFreePN`). -/
structure HTable where
  depth : Nat
  buckets : List Int
  pages : Int → Option Bucket
  nextPN : Int

/-- Write a bucket page through the pager. -/
def setPage (t : HTable) (pn : Int) (b : Bucket) : HTable :=
  { t with pages := fun q => if q = pn then some b else t.pages q }

/-- Modelled from the spec: `GetBucket` reads directory slot `hash` and pins
that bucket page (the hash subroutines file is not among the given
sources). -/
def getBucket (t : HTable) (hash : Nat) : Except String (Int × Bucket) :=
  match t.buckets.get? hash with
  | none => Except.error "GetBucket: directory index out of range"
  | some pn =>
    match t.pages pn with
    | none => Except.error "GetBucket: page not found"
    | some b => Except.ok (pn, b)

/-- Embeds `HashTable.ExtendTable` (table.go:98): increment the global depth
and append a copy of the directory to itself. -/
def extendTable (t : HTable) : HTable :=
  { t with depth := t.depth + 1, buckets := t.buckets ++ t.buckets }

/-- Accumulator of the redistribution loop of `HashTable.Split`
(table.go:132): the old bucket being compacted in place, the new bucket being
filled, and the two entry counters. -/
structure RedisAcc where
  ob : Bucket
  oc : Nat
  nb : Bucket
  nc : Nat

/-- One iteration of the redistribution loop of `HashTable.Split`
(table.go:132), reading `getKeyAt`/`getValueAt` from the old bucket as it is
being overwritten, exactly as the Go loop does. -/
def redisStep (h64 : Int → Nat) (d' oldHash : Nat) (acc : RedisAcc) (i : Nat) :
    RedisAcc :=
  let key := getKeyAt acc.ob i
  let value := getValueAt acc.ob i
  if Hasher h64 key d' = oldHash then
    { acc with ob := updateValueAt (updateKeyAt acc.ob acc.oc key) acc.oc value,
               oc := acc.oc + 1 }
  else
    { acc with nb := updateValueAt (updateKeyAt acc.nb acc.nc key) acc.nc value,
               nc := acc.nc + 1 }

/-- Embeds the redistribution loop of `HashTable.Split` (table.go:132). -/
def redisLoop (h64 : Int → Nat) (d' oldHash : Nat) (b0 nb0 : Bucket) :
    RedisAcc :=
  (List.range b0.numKeys).foldl (redisStep h64 d' oldHash) ⟨b0, 0, nb0, 0⟩

/-- Embeds the directory-update loop of `HashTable.Split` (table.go:155).
`powInt(2, depth)` goes through float64 `math.Pow` in Go, which is exact for
every depth reachable before memory is exhausted; it is embedded as `2 ^
depth`.  One slot update of the loop first: -/
def dirStep (mask newHash : Nat) (newPN : Int) (bs : List Int) (i : Nat) :
    List Int :=
  if i &&& mask = newHash then bs.set i newPN else bs

/-- Runs the directory-update loop over slots `0 … 2^depth - 1`. -/
def dirLoop (buckets : List Int) (depth mask newHash : Nat) (newPN : Int) :
    List Int :=
  (List.range (2 ^ depth)).foldl (dirStep mask newHash newPN) buckets

/-- The body of `HashTable.Split` (table.go:104) up to the recursion check:
extend the directory if the depths coincide (this keeps `nextPN`), allocate
the new bucket page at the next free page number, increase the old bucket's
depth, redistribute, write both buckets' key counts, and repoint the matching
directory slots.  Returns (old bucket, new bucket, updated table).
`NewHashBucket` never fails in the embedding, so the Go allocation error path
does not appear. -/
def splitParts (h64 : Int → Nat) (t : HTable) (bpn : Int) (bucket : Bucket)
    (hash : Nat) : Bucket × Bucket × HTable :=
  let t1 := if bucket.depth = t.depth then extendTable t else t
  let oldHash := hash % 2 ^ bucket.depth
  let newHash := oldHash + 2 ^ bucket.depth
  let newBucketDepth := bucket.depth + 1
  let bucket1 := updateDepth bucket newBucketDepth
  let newPN := t1.nextPN
  let newBucket0 : Bucket :=
    { depth := newBucketDepth, numKeys := 0, cells := fun _ => (0, 0) }
  let t2 := { setPage t1 newPN newBucket0 with nextPN := t1.nextPN + 1 }
  let acc := redisLoop h64 newBucketDepth oldHash bucket1 newBucket0
  let ob := updateNumKeys acc.ob acc.oc
  let nb := updateNumKeys acc.nb acc.nc
  let mask := 2 ^ newBucketDepth - 1
  let t3 := setPage (setPage
    { t2 with buckets := dirLoop t2.buckets t2.depth mask newHash newPN }
    bpn ob) newPN nb
  (ob, nb, t3)

/-- Embeds `HashTable.Split` (table.go:104).  The recursion is not
structurally bounded (when every entry keeps hashing to the same side it
never terminates), hence the fuel; `none` marks divergence.  The counters
`oldBucketEntryCount`/`newBucketEntryCount` of the Go code are the buckets'
final key counts; the new bucket's page number is `t.nextPN` since directory
extension does not allocate. -/
def split (h64 : Int → Nat) : Nat → HTable → Int → Bucket → Nat → Option HTable
  | 0, _, _, _, _ => none
  | fuel + 1, t, bpn, bucket, hash =>
    let oldHash := hash % 2 ^ bucket.depth
    let newHash := oldHash + 2 ^ bucket.depth
    let parts := splitParts h64 t bpn bucket hash
    if parts.1.numKeys = 0 then split h64 fuel parts.2.2 t.nextPN parts.2.1 newHash
    else if parts.2.1.numKeys = 0 then split h64 fuel parts.2.2 bpn parts.1 oldHash
    else some parts.2.2

/-- Embeds `HashTable.Insert` (table.go:173): locate the bucket, append if
there is room, otherwise split.  The overflowing entry is whatever
`HashBucket.Insert` left in the bucket — on overflow that is the unchanged
bucket. -/
def tableInsert (h64 : Int → Nat) (BUCKETSIZE : Nat) (fuel : Nat)
    (t : HTable) (key value : Int) : Option (Except String HTable) :=
  let hashedKey := Hasher h64 key t.depth
  match getBucket t hashedKey with
  | Except.error e => some (Except.error e)
  | Except.ok (pn, bucket) =>
    let r := bucketInsert BUCKETSIZE bucket key value
    let t' := setPage t pn r.2
    if !r.1 then some (Except.ok t')
    else
      match split h64 fuel t' pn r.2 hashedKey with
      | none => none
      | some t2 => some (Except.ok t2)

/-- Embeds `HashTable.Find` (table.go:73). -/
def tableFind (h64 : Int → Nat) (t : HTable) (key : Int) :
    Except String (Int × Int) :=
  let hashedKey := Hasher h64 key t.depth
  match getBucket t hashedKey with
  | Except.error e => Except.error e
  | Except.ok (_, bucket) =>
    match bucketFind bucket key with
    | none => Except.error "find error: entry not found"
    | some entry => Except.ok entry

/-- Embeds `HashTable.Update` (table.go:204). -/
def tableUpdate (h64 : Int → Nat) (t : HTable) (key value : Int) :
    Except String HTable :=
  let hashedKey := Hasher h64 key t.depth
  match getBucket t hashedKey with
  | Except.error e => Except.error e
  | Except.ok (pn, bucket) =>
    match bucketUpdate bucket key value with
    | Except.error e => Except.error e
    | Except.ok b' => Except.ok (setPage t pn b')

/-- Embeds `HashTable.Delete` (table.go:222). -/
def tableDelete (h64 : Int → Nat) (t : HTable) (key : Int) :
    Except String HTable :=
  let hashedKey := Hasher h64 key t.depth
  match getBucket t hashedKey with
  | Except.error e => Except.error e
  | Except.ok (pn, bucket) =>
    match bucketDelete bucket key with
    | Except.error e => Except.error e
    | Except.ok b' => Except.ok (setPage t pn b')

/-- An empty bucket of the given local depth, as `NewHashBucket` writes it. -/
def emptyBucket (d : Nat) : Bucket := ⟨d, 0, fun _ => (0, 0)⟩

/-- A full bucket (`BUCKETSIZE = 2`) of local depth 2 holding keys 0 and 4,
which both hash to directory slot 0 under the identity hash. -/
def c1FullBucket : Bucket :=
  ⟨2, 2, fun i => if i = 0 then (0, 100) else if i = 1 then (4, 104) else (0, 0)⟩

/-- Concrete hash-table state for the C1 counterexample: global depth 2,
bucket page 0 full with keys 0 and 4 (`BUCKETSIZE = 2`), pages 1-3 empty
buckets, under the identity hash. -/
def c1Table : HTable :=
  { depth := 2
    buckets := [0, 1, 2, 3]
    pages := fun pn =>
      if pn = 0 then some c1FullBucket
      else if pn = 1 then some (emptyBucket 2)
      else if pn = 2 then some (emptyBucket 2)
      else if pn = 3 then some (emptyBucket 2)
      else none
    nextPN := 4 }

end HashIdx

namespace BTreeIdx

/-- Node page-number constant `NOPAGE` (page.go, not among the given
sources): a leaf's `rightSiblingPN` at the tail is negative, matching the
`nextPN < 0` check of `BTreeCursor.StepForward`. -/
def NOPAGE : Int := -1

/-- Embeds `LeafNode` (btree.go/node.go): number of keys, the page's cell
array (a slot exists at every index; cells at or beyond `numKeys` hold stale
bytes), the right sibling page number, and the node's own page number. -/
structure LeafN where
  numKeys : Nat
  cells : Nat → Int × Int
  rightSiblingPN : Int
  pn : Int

/-- Embeds `InternalNode`: keys, child page numbers, own page number. -/
structure IntN where
  numKeys : Nat
  keys : Nat → Int
  pns : Nat → Int
  pn : Int

/-- A node, discriminated by the header byte (`nodeType`). -/
inductive BNode
  | leaf (l : LeafN)
  | internal (n : IntN)

/-- Embeds the `Split` struct of node.go; `err` is `Option String` for the Go
`error`. -/
structure SplitR where
  isSplit : Bool
  key : Int
  leftPN : Int
  rightPN : Int
  err : Option String
deriving Repr

/-- Embeds Go's `sort.Search` binary-search loop: smallest index in `[i, j)`
satisfying `f`, assuming `f` is monotone (as Go documents); on other inputs
it returns what the Go loop returns.  Each iteration shrinks `j - i` by at
least one, so the fuel `n + 1` passed by `sortSearch` is never exhausted. -/
def goSearch (f : Nat → Bool) : Nat → Nat → Nat → Nat
  | 0, i, _ => i
  | fuel + 1, i, j =>
    if i < j then
      if f ((i + j) / 2) then goSearch f fuel i ((i + j) / 2)
      else goSearch f fuel ((i + j) / 2 + 1) j
    else i

/-- Embeds `sort.Search(n, f)`. -/
def sortSearch (n : Nat) (f : Nat → Bool) : Nat := goSearch f (n + 1) 0 n

/-- Embeds `LeafNode.search` (node.go:43): first index with key ≥ the given
key. -/
def leafSearch (node : LeafN) (key : Int) : Nat :=
  sortSearch node.numKeys (fun i => decide ((node.cells i).1 ≥ key))

/-- Embeds `getKeyAt`. -/
def getKeyAt (node : LeafN) (i : Nat) : Int := (node.cells i).1

/-- Embeds `getValueAt`. -/
def getValueAt (node : LeafN) (i : Nat) : Int := (node.cells i).2

/-- Embeds `updateKeyAt`. -/
def updateKeyAt (node : LeafN) (i : Nat) (k : Int) : LeafN :=
  { node with cells := fun j => if j = i then (k, (node.cells i).2) else node.cells j }

/-- Embeds `updateValueAt`. -/
def updateValueAt (node : LeafN) (i : Nat) (v : Int) : LeafN :=
  { node with cells := fun j => if j = i then ((node.cells i).1, v) else node.cells j }

/-- Embeds `updateNumKeys`. -/
def updateNumKeys (node : LeafN) (n : Nat) : LeafN := { node with numKeys := n }

/-- The live entries of a leaf: cells `0 … numKeys-1` in order. -/
def leafEntries (node : LeafN) : List (Int × Int) :=
  (List.range node.numKeys).map node.cells

/-- The shift loop of `LeafNode.insert` (node.go:69): move cells
`idx … numKeys-1` one slot right, iterating downward as the Go loop does. -/
def shiftRight (node : LeafN) (idx : Nat) : LeafN :=
  ((List.range' idx (node.numKeys - idx)).reverse).foldl
    (fun acc i =>
      let acc1 := updateValueAt acc (i + 1) (getValueAt acc i)
      updateKeyAt acc1 (i + 1) (getKeyAt acc1 i)) node

/-- The in-place store of `LeafNode.insert` (node.go:68-77): shift, write the
new cell at `idx`, bump `numKeys`. -/
def leafStore (node : LeafN) (idx : Nat) (key value : Int) : LeafN :=
  updateNumKeys (updateValueAt (updateKeyAt (shiftRight node idx) idx key) idx value)
    (node.numKeys + 1)

/-- Embeds `LeafNode.split` (node.go:103): no split below
`ENTRIES_PER_LEAF_NODE` (`E`, defined in the btree constants file that is not
among the given sources, hence a parameter); otherwise move the upper half to
a fresh right leaf allocated at page `freshPN`, splice the sibling chain, and
report the promoted key.  Returns (left node, new right node if any, split
record). -/
def leafSplit (E : Nat) (node : LeafN) (freshPN : Int) :
    LeafN × Option LeafN × SplitR :=
  if node.numKeys < E then (node, none, ⟨false, 0, 0, 0, none⟩)
  else
    let half := node.numKeys / 2
    let newRight0 : LeafN := ⟨0, fun _ => (0, 0), NOPAGE, freshPN⟩
    let newRight1 := (List.range' half (node.numKeys - half)).foldl
      (fun acc i =>
        updateValueAt (updateKeyAt acc (i - half) (getKeyAt node i)) (i - half)
          (getValueAt node i)) newRight0
    let newRight2 := { updateNumKeys newRight1 (node.numKeys - half) with
      rightSiblingPN := node.rightSiblingPN }
    let node1 := { updateNumKeys node half with rightSiblingPN := freshPN }
    (node1, some newRight2,
      ⟨true, getKeyAt newRight2 0, node.pn, freshPN, none⟩)

/-- Embeds `LeafNode.insert` (node.go:52): on `update`, overwrite only an
existing key, else error; otherwise reject an existing key, else store.
Both successful paths fall through to `split()` as the Go code does. -/
def leafInsert (E : Nat) (node : LeafN) (key value : Int) (update : Bool)
    (freshPN : Int) : LeafN × Option LeafN × SplitR :=
  let idx := leafSearch node key
  if update then
    if idx < node.numKeys ∧ getKeyAt node idx = key then
      leafSplit E (updateValueAt node idx value) freshPN
    else (node, none, ⟨false, 0, 0, 0, some "cannot update non-existing tuple"⟩)
  else
    if idx < node.numKeys ∧ getKeyAt node idx = key then
      (node, none, ⟨false, 0, 0, 0, some "cannot insert existing key"⟩)
    else
      leafSplit E (leafStore node idx key value) freshPN

/-- Embeds `LeafNode.delete` (node.go:85): silently return when the key is
absent, else shift-remove. -/
def leafDelete (node : LeafN) (key : Int) : LeafN :=
  let index := leafSearch node key
  if index ≥ node.numKeys ∨ getKeyAt node index ≠ key then node
  else
    let node1 := (List.range' (index + 1) (node.numKeys - (index + 1))).foldl
      (fun acc i =>
        let acc1 := updateKeyAt acc (i - 1) (getKeyAt acc i)
        updateValueAt acc1 (i - 1) (getValueAt acc1 i)) node
    updateNumKeys node1 (node.numKeys - 1)

/-- Embeds `LeafNode.get` (node.go:145). -/
def leafGet (node : LeafN) (key : Int) : Int × Bool :=
  let index := leafSearch node key
  if index ≥ node.numKeys ∨ getKeyAt node index ≠ key then (0, false)
  else (getValueAt node index, true)

/-- Embeds `InternalNode.search` (node.go:192): first index with key > the
given key. -/
def internalSearch (node : IntN) (key : Int) : Nat :=
  sortSearch node.numKeys (fun i => decide (node.keys i > key))

/-- Embeds `BTreeIndex` (btree.go, not among the given sources beyond its
use): the pager's view of the node pages plus the root page number. -/
structure BTreeIndex where
  pages : Int → Option BNode
  rootPN : Int

/-- Embeds `keyToNodeEntry` (node.go:156 and node.go:312): descend to the
leaf responsible for the key and return it with the leaf search index.  The
page graph may be malformed, so descent takes fuel; `none` marks
divergence. -/
def keyToNodeEntry (pages : Int → Option BNode) :
    Nat → BNode → Int → Option (Except String (LeafN × Nat))
  | 0, _, _ => none
  | _ + 1, BNode.leaf l, key => some (Except.ok (l, leafSearch l key))
  | fuel + 1, BNode.internal n, key =>
    match pages (n.pns (internalSearch n key)) with
    | none => some (Except.error "getChildAt: page not found")
    | some child => keyToNodeEntry pages fuel child key

/-- Embeds `BTreeCursor` (cursor.go:10); the table reference is passed
separately. -/
structure BCursor where
  cellnum : Nat
  isEnd : Bool
  curNode : LeafN

/-- Embeds `BTreeIndex.TableFind` (cursor.go:78): descend via
`keyToNodeEntry`; the cursor points at the returned leaf index, and `isEnd`
is set only for an empty leaf. -/
def tableFind (idx : BTreeIndex) (fuel : Nat) (key : Int) :
    Option (Except String BCursor) :=
  match idx.pages idx.rootPN with
  | none => some (Except.error "GetPage: page not found")
  | some rootNode =>
    match keyToNodeEntry idx.pages fuel rootNode key with
    | none => none
    | some (Except.error e) => some (Except.error e)
    | some (Except.ok (l, i)) =>
      some (Except.ok ⟨i, decide (l.numKeys = 0), l⟩)

/-- Embeds `BTreeCursor.GetEntry` (cursor.go:170). -/
def getEntry (c : BCursor) : Except String (Int × Int) :=
  if c.isEnd then Except.error "getEntry: entry is non-existent"
  else Except.ok (c.curNode.cells c.cellnum)

/-- Embeds `BTreeCursor.StepForward` (cursor.go:132).  `pageToLeafNode` on a
page that is not a leaf would reinterpret raw bytes; that is reachable only
on malformed trees and surfaces as an error here.  Sibling chains may be
cyclic in a malformed file, hence the fuel. -/
def stepForward (idx : BTreeIndex) : Nat → BCursor → Option (Except String BCursor)
  | 0, _ => none
  | fuel + 1, c =>
    if c.isEnd then
      if c.curNode.rightSiblingPN < 0 then
        some (Except.error "cannot advance the cursor further")
      else
        match idx.pages c.curNode.rightSiblingPN with
        | none => some (Except.error "GetPage: page not found")
        | some (BNode.internal _) =>
          some (Except.error "pageToLeafNode: page is not a leaf")
        | some (BNode.leaf nextNode) =>
          if decide (0 = nextNode.numKeys) then
            stepForward idx fuel ⟨0, true, nextNode⟩
          else some (Except.ok ⟨0, false, nextNode⟩)
    else
      some (Except.ok ⟨c.cellnum + 1,
        decide (c.cellnum + 1 ≥ c.curNode.numKeys), c.curNode⟩)

/-- The loop of `BTreeIndex.TableFindRange` (cursor.go:114): while the
cursor is not at the end and the entry key is below `endKey`, append and
advance; a `GetEntry` or `StepForward` error aborts with that error. -/
def rangeLoop (idx : BTreeIndex) :
    Nat → BCursor → (Int × Int) → List (Int × Int) → Int →
      Option (Except String (List (Int × Int)))
  | 0, _, _, _, _ => none
  | fuel + 1, cursor, entry, ret, endKey =>
    if !cursor.isEnd && decide (entry.1 < endKey) then
      match stepForward idx fuel cursor with
      | none => none
      | some (Except.error e) => some (Except.error e)
      | some (Except.ok cursor') =>
        match getEntry cursor' with
        | Except.error e => some (Except.error e)
        | Except.ok entry' =>
          rangeLoop idx fuel cursor' entry' (ret ++ [entry]) endKey
    else some (Except.ok ret)

/-- Embeds `BTreeIndex.TableFindRange` (cursor.go:100). -/
def tableFindRange (idx : BTreeIndex) (fuel : Nat) (startKey endKey : Int) :
    Option (Except String (List (Int × Int))) :=
  match tableFind idx fuel startKey with
  | none => none
  | some (Except.error e) => some (Except.error e)
  | some (Except.ok cursor) =>
    match getEntry cursor with
    | Except.error e => some (Except.error e)
    | Except.ok entry => rangeLoop idx fuel cursor entry [] endKey

/-- The single leaf of the C5 counterexample: one entry `(1, 10)`, no right
sibling, root of the tree. -/
def c5Leaf : LeafN := ⟨1, fun i => if i = 0 then (1, 10) else (0, 0), NOPAGE, 0⟩

/-- The C5 counterexample tree: a one-leaf B+-tree holding only `(1, 10)`. -/
def c5Tree : BTreeIndex :=
  { pages := fun pn => if pn = 0 then some (BNode.leaf c5Leaf) else none
    rootPN := 0 }

/-- The leaf of the C3/C9 concrete inputs: one entry `(1, 10)` on page 7. -/
def c3Leaf : LeafN := ⟨1, fun i => if i = 0 then (1, 10) else (0, 0), NOPAGE, 7⟩

end BTreeIdx

namespace PagerM

/-- Embeds `Page` (page.go, modelled from the spec where not among the given
sources): page number, pin count, dirty bit, and the 4KB buffer abstracted to
a single `Int` since no theorem looks inside it. -/
structure PFrame where
  pagenum : Int
  pinCount : Nat
  dirty : Bool
  data : Int
deriving DecidableEq

/-- Embeds `Pager` (part_002:24): the three lists hold frame ids (list heads
first, as `list.List` does), `frames` is the backing buffer pool, `pageTable`
the map from page number to frame, `disk` the file contents by page number
(`none` beyond end of file), `nPages` the page count. -/
structure Pager where
  free : List Nat
  unpinned : List Nat
  pinned : List Nat
  frames : Nat → PFrame
  pageTable : Int → Option Nat
  disk : Int → Option Int
  nPages : Int

/-- Embeds `Pager.ReadPageFromDisk` (part_002:124): overwrite the buffer with
the page's disk content; a read past end of file yields `io.EOF`, which the Go
code ignores, leaving the buffer unchanged. -/
def readPage (disk : Int → Option Int) (fr : PFrame) (pagenum : Int) : PFrame :=
  match disk pagenum with
  | some d => { fr with data := d }
  | none => fr

/-- Embeds `Page.Get` (modelled from the spec: pinning increments the pin
count, and pinning a page on the unpinned list moves it to the pinned
list). -/
def pageGet (p : Pager) (fid : Nat) : Pager :=
  let fr := p.frames fid
  let p1 := { p with frames := fun j =>
    if j = fid then { fr with pinCount := fr.pinCount + 1 } else p.frames j }
  if fid ∈ p.unpinned then
    { p1 with unpinned := p1.unpinned.filter (fun j => decide (j ≠ fid)),
              pinned := p1.pinned ++ [fid] }
  else p1

/-- Embeds `Pager.NewPage` (part_002:136): take the free list's tail, else
the unpinned list's head, else fail; pop the frame from its list, renumber it
(dirty bit and buffer kept as they are — the code never flushes here), push
it on the pinned list's tail, and point the page table entry for `pagenum` at
it.  The evicted frame's old page-table entry is not removed, as in the
code. -/
def newPage (p : Pager) (pagenum : Int) : Except String (Pager × Nat) :=
  match p.free.getLast? with
  | some fid =>
    Except.ok ({ p with
      free := p.free.dropLast,
      pinned := p.pinned ++ [fid],
      frames := fun j =>
        if j = fid then { p.frames fid with pagenum := pagenum }
        else p.frames j,
      pageTable := fun q =>
        if q = pagenum then some fid else p.pageTable q }, fid)
  | none =>
    match p.unpinned with
    | [] => Except.error "no unpinned page available"
    | fid :: rest =>
      Except.ok ({ p with
        unpinned := rest,
        pinned := p.pinned ++ [fid],
        frames := fun j =>
          if j = fid then { p.frames fid with pagenum := pagenum }
          else p.frames j,
        pageTable := fun q =>
          if q = pagenum then some fid else p.pageTable q }, fid)

/-- Embeds `Pager.GetPage` (part_002:164).  Hit: pin the cached frame.  Miss:
`NewPage`, read the page from disk into the frame, pin, increment `nPages`.
If `NewPage` fails, the code builds a throwaway zero-valued page (pagenum 0,
clean), reads it from disk twice (once in the error branch, once on the
shared path), pins it and bumps `nPages`, returning it without registering it
in any list or in the page table — that orphan is returned as the frame value
with no pool id.  Returns the new pager state and the frame handed to the
caller. -/
def getPage (p : Pager) (pagenum : Int) : Except String (Pager × PFrame) :=
  if pagenum > p.nPages then Except.error "invalid page number"
  else
    match p.pageTable pagenum with
    | some fid =>
      let p1 := pageGet p fid
      Except.ok (p1, p1.frames fid)
    | none =>
      match newPage p pagenum with
      | Except.ok (p1, fid) =>
        let fr1 := readPage p1.disk (p1.frames fid) pagenum
        let p2 := { p1 with frames := fun j =>
          if j = fid then fr1 else p1.frames j }
        let p3 := { pageGet p2 fid with nPages := p2.nPages + 1 }
        Except.ok (p3, p3.frames fid)
      | Except.error _ =>
        let orphan0 : PFrame := { pagenum := 0, pinCount := 0, dirty := false, data := 0 }
        let orphan1 := readPage p.disk (readPage p.disk orphan0 pagenum) pagenum
        Except.ok ({ p with nPages := p.nPages + 1 },
          { orphan1 with pinCount := orphan1.pinCount + 1 })

/-- Embeds `Pager.FlushPage` (part_002:201): write a dirty frame's buffer to
its page on disk and clear the dirty bit; do nothing for a clean frame. -/
def flushPage (p : Pager) (fid : Nat) : Pager :=
  let fr := p.frames fid
  if fr.dirty then
    { p with
      disk := fun q => if q = fr.pagenum then some fr.data else p.disk q,
      frames := fun j =>
        if j = fid then { fr with dirty := false } else p.frames j }
  else p

/-- Concrete pager for the C2 run: one frame (id 0) holding page 1 with
dirty data 77, sitting alone on the unpinned list; the free list is empty;
disk page 1 still holds the stale value 11; two pages exist. -/
def c2Pager : Pager :=
  { free := [], unpinned := [0], pinned := [],
    frames := fun j =>
      if j = 0 then { pagenum := 1, pinCount := 0, dirty := true, data := 77 }
      else { pagenum := -1, pinCount := 0, dirty := false, data := 0 },
    pageTable := fun q => if q = 1 then some 0 else none,
    disk := fun q => if q = 1 then some 11 else none,
    nPages := 2 }

end PagerM

namespace RecM

/-- Embeds the parsed log records of the recovery package (part_000).  Go
identifies transactions by `uuid.UUID`, compared only for equality, so `Nat`
ids suffice; the table/edit payloads are opaque strings because `Redo` and
`Undo` are passed in as parameters below. -/
inductive LogRec where
  | start (id : Nat)
  | commit (id : Nat)
  | table (payload : String)
  | edit (id : Nat) (payload : String)
  | checkpoint (ids : List Nat)
deriving DecidableEq

/-- Go `undoSet[id] = true` on the `map[uuid.UUID]bool` undo set. -/
def usAdd (s : List Nat) (id : Nat) : List Nat :=
  if id ∈ s then s else s ++ [id]

/-- Go `delete(undoSet, id)`. -/
def usDel (s : List Nat) (id : Nat) : List Nat :=
  s.filter (fun j => decide (j ≠ id))

/-- The checkpoint-initialisation loop of `Recover` (part_000:236-246): for
each id in the checkpoint's active list, mark it for undo and call
`tm.Begin(id)`, propagating any error. -/
def ckptInit {σ : Type} (tm : ConcM.TM σ) (l : LogRec) :
    Except String (ConcM.TM σ × List Nat) :=
  match l with
  | .checkpoint ids =>
    ids.foldlM (fun acc id => do
      let tm1 ← ConcM.beginTxn acc.1 id
      pure (tm1, usAdd acc.2 id)) (tm, [])
  | _ => Except.ok (tm, [])

/-- One step of the forward (redo) pass of `Recover` (part_000:249-278).
`lmUnlock` is the opaque `lm.Unlock` used by `tm.Commit`; `redo` is the
opaque `rm.Redo` acting on the database state `δ`. -/
def fwdStep {σ δ : Type}
    (lmUnlock : σ → ConcM.Resource → ConcM.LockType → Except String σ)
    (redo : LogRec → δ → Except String δ)
    (acc : ConcM.TM σ × δ × List Nat) (l : LogRec) :
    Except String (ConcM.TM σ × δ × List Nat) :=
  match l with
  | .start id => do
    let tm1 ← ConcM.beginTxn acc.1 id
    pure (tm1, acc.2.1, usAdd acc.2.2 id)
  | .edit id p => do
    let d1 ← redo (.edit id p) acc.2.1
    pure (acc.1, d1, acc.2.2)
  | .table p => do
    let d1 ← redo (.table p) acc.2.1
    pure (acc.1, d1, acc.2.2)
  | .commit id => do
    let tm1 ← ConcM.commitTxn lmUnlock acc.1 id
    pure (tm1, acc.2.1, usDel acc.2.2 id)
  | .checkpoint _ => Except.ok acc

/-- The backward (undo) pass of `Recover` (part_000:280-304), walking the
logs newest-first and stopping once the undo set is empty.  `rmCommit` is
the opaque `rm.Commit`, whose error Go discards; `undo` is the opaque
`rm.Undo`. -/
def bwdLoop {σ δ : Type}
    (lmUnlock : σ → ConcM.Resource → ConcM.LockType → Except String σ)
    (undo : LogRec → δ → Except String δ) (rmCommit : Nat → δ → δ) :
    List LogRec → ConcM.TM σ × δ × List Nat →
      Except String (ConcM.TM σ × δ × List Nat)
  | [], acc => Except.ok acc
  | l :: rest, acc =>
    if acc.2.2 = [] then Except.ok acc
    else
      match l with
      | .start id =>
        if id ∈ acc.2.2 then do
          let d1 := rmCommit id acc.2.1
          let tm1 ← ConcM.commitTxn lmUnlock acc.1 id
          bwdLoop lmUnlock undo rmCommit rest (tm1, d1, usDel acc.2.2 id)
        else bwdLoop lmUnlock undo rmCommit rest acc
      | .edit id p =>
        if id ∈ acc.2.2 then do
          let d1 ← undo (.edit id p) acc.2.1
          bwdLoop lmUnlock undo rmCommit rest (acc.1, d1, acc.2.2)
        else bwdLoop lmUnlock undo rmCommit rest acc
      | _ => bwdLoop lmUnlock undo rmCommit rest acc

/-- Embeds `RecoveryManager.Recover` (part_000:222-305) after `readLogs`:
the parsed `logs` and `checkpointPos` are inputs (`readLogs` does file
input that is not modelled).  Returns the final transaction-manager,
database and undo-set state, or the first propagated error. -/
def recover {σ δ : Type}
    (lmUnlock : σ → ConcM.Resource → ConcM.LockType → Except String σ)
    (redo undo : LogRec → δ → Except String δ) (rmCommit : Nat → δ → δ)
    (logs : List LogRec) (checkpointPos : Nat)
    (tm : ConcM.TM σ) (d : δ) :
    Except String (ConcM.TM σ × δ × List Nat) :=
  if checkpointPos ≥ logs.length then Except.ok (tm, d, [])
  else do
    let (tm1, us) ← ckptInit tm (logs.getD checkpointPos (.checkpoint []))
    let acc ← (logs.drop checkpointPos).foldlM (fwdStep lmUnlock redo) (tm1, d, us)
    bwdLoop lmUnlock undo rmCommit logs.reverse acc

end RecM

namespace ConcM

theorem dropLast_cons_ne {α : Type} (a : α) (l : List α) (h : l ≠ []) :
    (a :: l).dropLast = a :: l.dropLast := by
  cases l with
  | nil => exact absurd rfl h
  | cons b l' => rfl

theorem getLast?_cons_cons' {α : Type} (a b : α) (l : List α) :
    (a :: b :: l).getLast? = (b :: l).getLast? := rfl

theorem findEdgeIdx_mem {l : List GEdge} {e : GEdge} (h : e ∈ l) :
    ∃ i, findEdgeIdx l e = some i ∧ l.get? i = some e := by
  induction l with
  | nil => cases h
  | cons x xs ih =>
    by_cases hx : x = e
    · exact ⟨0, by simp [findEdgeIdx, hx], by simp [hx]⟩
    · have hmem : e ∈ xs := by
        cases h with
        | head => exact absurd rfl hx
        | tail _ h' => exact h'
      obtain ⟨i, hfind, hget⟩ := ih hmem
      exact ⟨i + 1, by simp [findEdgeIdx, hx, hfind], by simpa using hget⟩

theorem findEdgeIdx_none {l : List GEdge} {e : GEdge} (h : e ∉ l) :
    findEdgeIdx l e = none := by
  induction l with
  | nil => rfl
  | cons x xs ih =>
    have hx : x ≠ e := fun hc => h (hc ▸ List.mem_cons_self x xs)
    have hxs : e ∉ xs := fun hc => h (List.mem_cons_of_mem _ hc)
    simp [findEdgeIdx, hx, ih hxs]

/-- Swap-removal at an in-range index is a permutation of ordinary removal at
that index. -/
theorem swapRemove_perm (l : List GEdge) (i : Nat) (h : i < l.length) :
    (swapRemove l i).Perm (l.eraseIdx i) := by
  induction l generalizing i with
  | nil => simp at h
  | cons a l ih =>
    cases l with
    | nil =>
      have hi : i = 0 := Nat.lt_one_iff.mp (by simpa using h)
      subst hi
      simp [swapRemove]
    | cons b l' =>
      have hne : (b :: l') ≠ [] := by simp
      have hlast : (a :: b :: l').getLast?.getD (0, 0)
          = (b :: l').getLast hne := by
        rw [getLast?_cons_cons', List.getLast?_eq_getLast _ hne]
        rfl
      have hdecomp : (b :: l').dropLast ++ [(b :: l').getLast hne]
          = b :: l' := List.dropLast_append_getLast hne
      cases i with
      | zero =>
        unfold swapRemove
        rw [hlast]
        have hset : (a :: b :: l').set 0 ((b :: l').getLast hne)
            = (b :: l').getLast hne :: b :: l' := rfl
        rw [hset, dropLast_cons_ne _ _ hne]
        have herase : (a :: b :: l').eraseIdx 0 = b :: l' := rfl
        rw [herase]
        have hp := List.perm_append_singleton ((b :: l').getLast hne)
          ((b :: l').dropLast)
        rw [hdecomp] at hp
        exact hp.symm
      | succ i =>
        have hi : i < (b :: l').length := Nat.lt_of_succ_lt_succ h
        have hsetne : (b :: l').set i ((b :: l').getLast hne) ≠ [] := by
          intro hc
          have hlen := congrArg List.length hc
          rw [List.length_set] at hlen
          simp at hlen
        unfold swapRemove
        rw [hlast]
        have hset : (a :: b :: l').set (i + 1) ((b :: l').getLast hne)
            = a :: (b :: l').set i ((b :: l').getLast hne) := rfl
        rw [hset, dropLast_cons_ne _ _ hsetne]
        have herase : (a :: b :: l').eraseIdx (i + 1)
            = a :: (b :: l').eraseIdx i := rfl
        rw [herase]
        refine List.Perm.cons a ?_
        have hrec := ih i hi
        unfold swapRemove at hrec
        rw [List.getLast?_eq_getLast _ hne] at hrec
        exact hrec

/-- Removing at an index holding `e` removes exactly one copy of `e`
(multiset view). -/
theorem eraseIdx_multiset {l : List GEdge} {i : Nat} {e : GEdge}
    (h : l.get? i = some e) :
    e ::ₘ (↑(l.eraseIdx i) : Multiset GEdge) = ↑l := by
  induction l generalizing i with
  | nil => simp at h
  | cons a l ih =>
    cases i with
    | zero =>
      simp only [List.get?] at h
      cases h
      simp [List.eraseIdx]
    | succ i =>
      simp only [List.get?] at h
      have := ih h
      simp only [List.eraseIdx]
      calc e ::ₘ (↑(a :: l.eraseIdx i) : Multiset GEdge)
          = e ::ₘ a ::ₘ (↑(l.eraseIdx i) : Multiset GEdge) := by
            simp
        _ = a ::ₘ e ::ₘ (↑(l.eraseIdx i) : Multiset GEdge) :=
            Multiset.cons_swap e a _
        _ = a ::ₘ (↑l : Multiset GEdge) := by rw [this]
        _ = ↑(a :: l) := by simp

/-- A successful `RemoveEdge` removes exactly one copy of the requested edge. -/
theorem removeEdge_multiset {g : Graph} {f t : TId} (h : (f, t) ∈ g.edges) :
    ∃ g', removeEdge g f t = Except.ok g' ∧
      (f, t) ::ₘ (↑g'.edges : Multiset GEdge) = ↑g.edges := by
  obtain ⟨i, hfind, hget⟩ := findEdgeIdx_mem h
  have hlt : i < g.edges.length := by
    by_contra hge
    rw [List.get?_eq_none.mpr (Nat.le_of_not_lt hge)] at hget
    exact Option.noConfusion hget
  refine ⟨{ edges := swapRemove g.edges i }, by simp [removeEdge, hfind], ?_⟩
  have hperm := swapRemove_perm g.edges i hlt
  have : (↑(swapRemove g.edges i) : Multiset GEdge) = ↑(g.edges.eraseIdx i) :=
    Multiset.coe_eq_coe.mpr hperm
  rw [this]
  exact eraseIdx_multiset hget

end ConcM

/-- C10: Waits-for graph edge round trip.  AddEdge(a, b) followed by
RemoveEdge(a, b) leaves the multiset of edges unchanged (RemoveEdge removes
exactly one copy), and RemoveEdge of an edge that is not in the graph returns
an error, leaving the edges unchanged. -/
theorem c10_graph_edge_roundtrip (g : ConcM.Graph) (a b : ConcM.TId) :
    (∃ g', ConcM.removeEdge (ConcM.addEdge g a b) a b = Except.ok g' ∧
      (↑g'.edges : Multiset ConcM.GEdge) = ↑g.edges) ∧
    ((a, b) ∉ g.edges →
      ConcM.removeEdge g a b = Except.error "edge not found") := by
  constructor
  · have hmem : (a, b) ∈ (ConcM.addEdge g a b).edges := by
      simp [ConcM.addEdge]
    obtain ⟨g', hok, hms⟩ := ConcM.removeEdge_multiset hmem
    refine ⟨g', hok, ?_⟩
    have hadd : (↑(ConcM.addEdge g a b).edges : Multiset ConcM.GEdge)
        = (a, b) ::ₘ ↑g.edges := by
      simp [ConcM.addEdge]
    rw [hadd] at hms
    exact (Multiset.cons_inj_right _).mp hms
  · intro hnm
    simp [ConcM.removeEdge, ConcM.findEdgeIdx_none hnm]

/-- C10 witness: the round trip and the error case evaluated on a concrete
graph. -/
theorem c10_graph_edge_roundtrip_witness :
    (∃ g', ConcM.removeEdge (ConcM.addEdge ⟨[(1, 2)]⟩ 3 4) 3 4 = Except.ok g' ∧
      (↑g'.edges : Multiset ConcM.GEdge) = ↑([(1, 2)] : List ConcM.GEdge)) ∧
    ((3, 4) ∉ ([(1, 2)] : List ConcM.GEdge) →
      ConcM.removeEdge ⟨[(1, 2)]⟩ 3 4 = Except.error "edge not found") :=
  c10_graph_edge_roundtrip ⟨[(1, 2)]⟩ 3 4

namespace ConcM

theorem set_eq_of_le_length {α : Type} (l : List α) (i : Nat) (x : α)
    (h : l.length ≤ i) : l.set i x = l := by
  induction l generalizing i with
  | nil => rfl
  | cons a l ih =>
    cases i with
    | zero => simp at h
    | succ i =>
      simp only [List.set]
      rw [ih i (by simpa using h)]

theorem getD_set_eq' {α : Type} (l : List α) (i : Nat) (x d : α)
    (h : i < l.length) : (l.set i x).getD i d = x := by
  induction l generalizing i with
  | nil => simp at h
  | cons a l ih =>
    cases i with
    | zero => rfl
    | succ i => exact ih i (by simpa using h)

theorem getD_set_ne' {α : Type} (l : List α) (i j : Nat) (x d : α)
    (h : i ≠ j) : (l.set i x).getD j d = l.getD j d := by
  induction l generalizing i j with
  | nil => rfl
  | cons a l ih =>
    cases i with
    | zero =>
      cases j with
      | zero => exact absurd rfl h
      | succ j => rfl
    | succ i =>
      cases j with
      | zero => rfl
      | succ j => exact ih i j (fun hc => h (by rw [hc]))

theorem countFalse_replicate (n : Nat) :
    countFalse (List.replicate n false) = n := by
  simp [countFalse, List.count_replicate]

theorem countFalse_set_true {visited : List Bool} {v : Nat}
    (hv : visited.getD v false = false) (hlt : v < visited.length) :
    countFalse (visited.set v true) + 1 = countFalse visited := by
  induction visited generalizing v with
  | nil => simp at hlt
  | cons a l ih =>
    cases v with
    | zero =>
      have ha : a = false := hv
      subst ha
      simp [countFalse, List.count_cons]
    | succ v =>
      have hv' : l.getD v false = false := hv
      have hlt' : v < l.length := by simpa using hlt
      have := ih hv' hlt'
      simp only [List.set, countFalse, List.count_cons] at *
      omega

theorem dfs_complete {adj : List (List Nat)} {n : Nat}
    (hbound : ∀ u v, v ∈ adj.getD u [] → v < n)
    (hlen : adj.length = n) :
    ∀ {u w : Nat}, AWalk adj u w → ∀ (visited : List Bool) (fuel : Nat),
      visited.length = n → u < n → visited.getD w false = true →
      countFalse visited + 1 ≤ fuel → dfs adj fuel visited u = true := by
  intro u0 w0 walk
  induction walk with
  | @single u v hmem =>
    intro visited fuel hvlen hu hw hfuel
    cases fuel with
    | zero => omega
    | succ fuel =>
      unfold dfs
      rw [if_neg (by omega)]
      apply List.any_eq_true.mpr
      refine ⟨v, hmem, ?_⟩
      rw [hw, if_pos rfl]
  | @cons u v w hmem tail ih =>
    intro visited fuel hvlen hu hw hfuel
    cases fuel with
    | zero => omega
    | succ fuel =>
      unfold dfs
      rw [if_neg (by omega)]
      apply List.any_eq_true.mpr
      refine ⟨v, hmem, ?_⟩
      cases hvis : visited.getD v false with
      | true => rw [if_pos rfl]
      | false =>
        rw [if_neg (by simp [hvis])]
        have hvn : v < n := hbound _ _ hmem
        have hvlen' : v < visited.length := by omega
        apply ih
        · simpa using hvlen
        · exact hvn
        · rcases eq_or_ne w v with hwv | hwv
          · rw [hwv]
            exact getD_set_eq' _ _ _ _ hvlen'
          · rw [getD_set_ne' _ _ _ _ _ hwv.symm]
            exact hw
        · have := countFalse_set_true hvis hvlen'
          omega

theorem addFirst_mono {x : TId} {acc : List TId} (t : TId) (h : x ∈ acc) :
    x ∈ addFirst acc t := by
  unfold addFirst
  split
  · exact h
  · exact List.mem_append_left _ h

theorem addFirst_self (acc : List TId) (t : TId) : t ∈ addFirst acc t := by
  unfold addFirst
  split
  · assumption
  · simp

theorem orderStep_mono {x : TId} {acc : List TId} (e : GEdge) (h : x ∈ acc) :
    x ∈ orderStep acc e :=
  addFirst_mono _ (addFirst_mono _ h)

theorem orderStep_mem_fst (acc : List TId) (e : GEdge) :
    e.1 ∈ orderStep acc e :=
  addFirst_mono _ (addFirst_self _ _)

theorem orderStep_mem_snd (acc : List TId) (e : GEdge) :
    e.2 ∈ orderStep acc e :=
  addFirst_self _ _

theorem foldl_orderStep_mono {x : TId} :
    ∀ (l : List GEdge) (acc : List TId), x ∈ acc → x ∈ l.foldl orderStep acc := by
  intro l
  induction l with
  | nil => intro acc h; exact h
  | cons e l ih =>
    intro acc h
    rw [List.foldl_cons]
    exact ih _ (orderStep_mono e h)

theorem buildOrder_mem {E : List GEdge} {a b : TId} (h : (a, b) ∈ E) :
    a ∈ buildOrder E ∧ b ∈ buildOrder E := by
  unfold buildOrder
  suffices hgen : ∀ (l : List GEdge) (acc : List TId), (a, b) ∈ l →
      a ∈ l.foldl orderStep acc ∧ b ∈ l.foldl orderStep acc by
    exact hgen E [] h
  intro l
  induction l with
  | nil => intro acc h; cases h
  | cons e l ih =>
    intro acc hmem
    rcases List.mem_cons.mp hmem with heq | htail
    · subst heq
      rw [List.foldl_cons]
      exact ⟨foldl_orderStep_mono _ _ (orderStep_mem_fst acc _),
        foldl_orderStep_mono _ _ (orderStep_mem_snd acc _)⟩
    · rw [List.foldl_cons]
      exact ih (orderStep acc e) htail

theorem adjStep_length (order : List TId) (g : List (List Nat)) (e : GEdge) :
    (adjStep order g e).length = g.length := by
  unfold adjStep
  exact List.length_set _ _ _

theorem foldl_adjStep_length (order : List TId) :
    ∀ (l : List GEdge) (g : List (List Nat)),
      (l.foldl (adjStep order) g).length = g.length := by
  intro l
  induction l with
  | nil => intro g; rfl
  | cons e l ih =>
    intro g
    rw [List.foldl_cons, ih, adjStep_length]

theorem adjStep_mono {order : List TId} {g : List (List Nat)} {e : GEdge}
    {u v : Nat} (h : v ∈ g.getD u []) : v ∈ (adjStep order g e).getD u [] := by
  unfold adjStep
  by_cases heq : order.indexOf e.1 = u
  · subst heq
    by_cases hlt : order.indexOf e.1 < g.length
    · rw [getD_set_eq' _ _ _ _ hlt]
      exact List.mem_append_left _ h
    · rw [set_eq_of_le_length _ _ _ (Nat.le_of_not_lt hlt)]
      exact h
  · rw [getD_set_ne' _ _ _ _ _ heq]
    exact h

theorem foldl_adjStep_mono {order : List TId} {u v : Nat} :
    ∀ (l : List GEdge) (g : List (List Nat)), v ∈ g.getD u [] →
      v ∈ (l.foldl (adjStep order) g).getD u [] := by
  intro l
  induction l with
  | nil => intro g h; exact h
  | cons e l ih =>
    intro g h
    exact ih _ (adjStep_mono h)

theorem buildAdj_length (E : List GEdge) (order : List TId) :
    (buildAdj E order).length = order.length := by
  unfold buildAdj
  rw [foldl_adjStep_length, List.length_replicate]

theorem getD_replicate_self {α : Type} (x : α) (n u : Nat) :
    (List.replicate n x).getD u x = x := by
  induction n generalizing u with
  | zero => rfl
  | succ n ih =>
    cases u with
    | zero => rfl
    | succ u => exact ih u

theorem getD_replicate_nil (n u : Nat) :
    (List.replicate n ([] : List Nat)).getD u [] = [] :=
  getD_replicate_self [] n u

theorem buildAdj_adjacent {E : List GEdge} {a b : TId}
    (hmem : (a, b) ∈ E) (horder : a ∈ buildOrder E) :
    (buildOrder E).indexOf b ∈
      (buildAdj E (buildOrder E)).getD ((buildOrder E).indexOf a) [] := by
  set order := buildOrder E with horderdef
  unfold buildAdj
  suffices hgen : ∀ (l : List GEdge) (g : List (List Nat)),
      (a, b) ∈ l → g.length = order.length →
      order.indexOf b ∈ (l.foldl (adjStep order) g).getD (order.indexOf a) [] by
    exact hgen E _ hmem (by rw [List.length_replicate])
  intro l
  induction l with
  | nil => intro g h; cases h
  | cons e l ih =>
    intro g hmem' hlen
    rcases List.mem_cons.mp hmem' with heq | htail
    · subst heq
      rw [List.foldl_cons]
      apply foldl_adjStep_mono
      have hfi : order.indexOf a < g.length := by
        rw [hlen]
        exact List.indexOf_lt_length.mpr horder
      unfold adjStep
      rw [getD_set_eq' _ _ _ _ hfi]
      exact List.mem_append_right _ (by simp)
    · rw [List.foldl_cons]
      exact ih _ htail (by rw [adjStep_length, hlen])

theorem buildAdj_bound {E : List GEdge} :
    ∀ u v, v ∈ (buildAdj E (buildOrder E)).getD u [] →
      v < (buildOrder E).length := by
  set order := buildOrder E with horderdef
  unfold buildAdj
  suffices hgen : ∀ (l : List GEdge) (g : List (List Nat)),
      (∀ e ∈ l, e.2 ∈ order) →
      (∀ u v, v ∈ g.getD u [] → v < order.length) →
      (∀ u v, v ∈ (l.foldl (adjStep order) g).getD u [] → v < order.length) by
    apply hgen E
    · intro e he
      exact (buildOrder_mem (a := e.1) (b := e.2) (by simpa using he)).2
    · intro u v hv
      rw [getD_replicate_nil] at hv
      cases hv
  intro l
  induction l with
  | nil => intro g _ hg; exact hg
  | cons e l ih =>
    intro g hall hg
    apply ih _ (fun e' he' => hall e' (List.mem_cons_of_mem _ he'))
    intro u v hv
    unfold adjStep at hv
    by_cases heq : order.indexOf e.1 = u
    · subst heq
      by_cases hlt : order.indexOf e.1 < g.length
      · rw [getD_set_eq' _ _ _ _ hlt] at hv
        rcases List.mem_append.mp hv with hold | hnew
        · exact hg _ _ hold
        · have : v = order.indexOf e.2 := by simpa using hnew
          subst this
          exact List.indexOf_lt_length.mpr (hall e (List.mem_cons_self _ _))
      · rw [set_eq_of_le_length _ _ _ (Nat.le_of_not_lt hlt)] at hv
        exact hg _ _ hv
    · rw [getD_set_ne' _ _ _ _ _ heq] at hv
      exact hg _ _ hv

theorem awalk_of_walk {E : List GEdge} {x y : TId} (w : Walk E x y) :
    AWalk (buildAdj E (buildOrder E)) ((buildOrder E).indexOf x)
      ((buildOrder E).indexOf y) := by
  induction w with
  | single h =>
    exact AWalk.single (buildAdj_adjacent h (buildOrder_mem h).1)
  | cons h _ ih =>
    exact AWalk.cons (buildAdj_adjacent h (buildOrder_mem h).1) ih

theorem walk_src_mem {E : List GEdge} {x y : TId} (w : Walk E x y) :
    ∃ b, (x, b) ∈ E := by
  cases w with
  | single h => exact ⟨_, h⟩
  | cons h _ => exact ⟨_, h⟩

/-- Completeness of the embedded `DetectCycle`: whenever the edge list
contains a directed cycle, the DFS reports it. -/
theorem detectCycle_complete {E : List GEdge} (h : HasCycle E) :
    detectCycle E = true := by
  obtain ⟨v, walk⟩ := h
  obtain ⟨b, hedge⟩ := walk_src_mem walk
  have hv_mem : v ∈ buildOrder E := (buildOrder_mem hedge).1
  have hu : (buildOrder E).indexOf v < (buildOrder E).length :=
    List.indexOf_lt_length.mpr hv_mem
  unfold detectCycle
  apply List.any_eq_true.mpr
  refine ⟨(buildOrder E).indexOf v, List.mem_range.mpr hu, ?_⟩
  have hvislen : ((List.replicate (buildOrder E).length false).set
      ((buildOrder E).indexOf v) true).length = (buildOrder E).length := by
    rw [List.length_set, List.length_replicate]
  apply dfs_complete buildAdj_bound (buildAdj_length E _)
    (awalk_of_walk walk) _ _ hvislen hu
  · exact getD_set_eq' _ _ _ _ (by rw [List.length_replicate]; exact hu)
  · have hrep : ((List.replicate (buildOrder E).length false)).getD
        ((buildOrder E).indexOf v) false = false :=
      getD_replicate_self false _ _
    have := countFalse_set_true hrep (by rw [List.length_replicate]; exact hu)
    rw [countFalse_replicate] at this
    omega

end ConcM

namespace ConcM

theorem removeEdgeD_multiset {l : List GEdge} {e : GEdge} (h : e ∈ l) :
    (↑(removeEdgeD l e) : Multiset GEdge) = (↑l : Multiset GEdge).erase e := by
  obtain ⟨i, hfind, hget⟩ := findEdgeIdx_mem h
  have hlt : i < l.length := by
    by_contra hge
    rw [List.get?_eq_none.mpr (Nat.le_of_not_lt hge)] at hget
    exact Option.noConfusion hget
  unfold removeEdgeD
  rw [hfind]
  have hperm : (↑(swapRemove l i) : Multiset GEdge) = ↑(l.eraseIdx i) :=
    Multiset.coe_eq_coe.mpr (swapRemove_perm l i hlt)
  rw [hperm]
  have hcons := eraseIdx_multiset hget
  rw [← hcons, Multiset.erase_cons_head]

theorem foldr_removeD (es l : List GEdge)
    (hsub : (↑es : Multiset GEdge) ≤ ↑l) :
    (↑(es.foldr (fun e acc => removeEdgeD acc e) l) : Multiset GEdge)
      = ↑l - ↑es := by
  induction es with
  | nil => simp
  | cons e es ih =>
    have hsub' : (↑es : Multiset GEdge) ≤ ↑l := by
      refine le_trans ?_ hsub
      have : (↑(e :: es) : Multiset GEdge) = e ::ₘ ↑es := rfl
      rw [this]
      exact Multiset.le_cons_self _ _
    have hinner := ih hsub'
    have hcount : (↑es : Multiset GEdge).count e + 1
        ≤ (↑l : Multiset GEdge).count e := by
      have h := (Multiset.le_iff_count.mp hsub) e
      rw [show (↑(e :: es) : Multiset GEdge) = e ::ₘ ↑es from rfl,
        Multiset.count_cons_self] at h
      omega
    have hmem : e ∈ es.foldr (fun e acc => removeEdgeD acc e) l := by
      rw [← Multiset.mem_coe, hinner, ← Multiset.count_pos,
        Multiset.count_sub]
      omega
    rw [List.foldr_cons, removeEdgeD_multiset hmem, hinner]
    have hc : (↑(e :: es) : Multiset GEdge) = e ::ₘ ↑es := rfl
    rw [hc, Multiset.sub_cons]
    ext x
    rcases eq_or_ne x e with hx | hx
    · subst hx
      simp only [Multiset.count_sub, Multiset.count_erase_self]
      omega
    · simp only [Multiset.count_sub, Multiset.count_erase_of_ne hx]

/-- Running the deferred removals for exactly the edges that were appended
restores the original edge multiset. -/
theorem runDefers_multiset (g : List GEdge) (added : List GEdge) :
    (↑(runDefers ⟨g ++ added⟩ added).edges : Multiset GEdge) = ↑g := by
  unfold runDefers
  have hsub : (↑added : Multiset GEdge) ≤ ↑(g ++ added) := by
    have : (↑(g ++ added) : Multiset GEdge) = ↑g + ↑added := by
      simp
    rw [this]
    exact Multiset.le_add_left _ _
  have := foldr_removeD added (g ++ added) hsub
  simp only [this]
  have hcoe : (↑(g ++ added) : Multiset GEdge) = ↑g + ↑added := by simp
  rw [hcoe]
  ext x
  simp only [Multiset.count_sub, Multiset.count_add]
  omega

/-- Membership characterization of the edges added by `Lock`:
exactly one edge from the requester to each distinct conflicting holder. -/
theorem addedEdgesFor_mem {σ : Type} (tm : TM σ) (clientId : TId)
    (r : Resource) (lType : LockType) (f h : TId) :
    (f, h) ∈ addedEdgesFor tm clientId r lType ↔
      f = clientId ∧ h ≠ clientId ∧
        ∃ htxn, (h, htxn) ∈ tm.transactions ∧
          conflictsWith htxn r lType = true := by
  unfold addedEdgesFor discoverTransactions
  constructor
  · intro hmem
    obtain ⟨p, hp, heq⟩ := List.mem_map.mp hmem
    obtain ⟨hp', hne⟩ := List.mem_filter.mp hp
    obtain ⟨hpt, hconf⟩ := List.mem_filter.mp hp'
    obtain ⟨heq1, heq2⟩ := Prod.mk.injEq .. ▸ heq
    refine ⟨heq1.symm, ?_, p.2, ?_, ?_⟩
    · rw [← heq2]
      simpa using hne
    · rw [← heq2]
      exact hpt
    · simpa using hconf
  · rintro ⟨hf, hne, htxn, hmem, hconf⟩
    subst hf
    apply List.mem_map.mpr
    refine ⟨(h, htxn), ?_, rfl⟩
    apply List.mem_filter.mpr
    refine ⟨List.mem_filter.mpr ⟨hmem, by simpa using hconf⟩, by simpa using hne⟩

end ConcM

/-- C6: Deadlock rejection is atomic.  When the requesting transaction exists
and does not already hold the resource, `TransactionManager.Lock` adds a
waits-for edge to exactly the conflicting holders (last conjunct), and if the
graph extended by those edges contains a cycle, Lock returns the deadlock
error, the waits-for edge multiset is restored to its original value, the
underlying lock manager is never invoked (its state is unchanged for every
possible `lmLock`), and the transaction table — in particular the
requester's lock set — is unchanged. -/
theorem c6_deadlock_rejection_atomic {σ : Type}
    (lmLock : σ → ConcM.Resource → ConcM.LockType → Except String σ)
    (tm : ConcM.TM σ) (clientId : ConcM.TId) (tableName : String)
    (resourceKey : Int) (lType : ConcM.LockType) (txn : ConcM.Txn)
    (hfound : ConcM.lookupTxn tm clientId = some txn)
    (hnotheld : ConcM.resourcesGet txn (tableName, resourceKey) = none)
    (hcycle : ConcM.HasCycle (tm.pGraph.edges ++
      ConcM.addedEdgesFor tm clientId (tableName, resourceKey) lType)) :
    (ConcM.lockTM lmLock tm clientId tableName resourceKey lType).2
        = Except.error "contains cycle" ∧
    (↑(ConcM.lockTM lmLock tm clientId tableName resourceKey lType).1.pGraph.edges
        : Multiset ConcM.GEdge) = ↑tm.pGraph.edges ∧
    (ConcM.lockTM lmLock tm clientId tableName resourceKey lType).1.lm = tm.lm ∧
    (ConcM.lockTM lmLock tm clientId tableName resourceKey lType).1.transactions
        = tm.transactions ∧
    (∀ f h : ConcM.TId,
      (f, h) ∈ ConcM.addedEdgesFor tm clientId (tableName, resourceKey) lType ↔
        f = clientId ∧ h ≠ clientId ∧
          ∃ htxn, (h, htxn) ∈ tm.transactions ∧
            ConcM.conflictsWith htxn (tableName, resourceKey) lType = true) := by
  have hdet : ConcM.detectCycle (tm.pGraph.edges ++
      ConcM.addedEdgesFor tm clientId (tableName, resourceKey) lType) = true :=
    ConcM.detectCycle_complete hcycle
  unfold ConcM.lockTM
  rw [hfound]
  simp only [hnotheld]
  rw [if_pos hdet]
  refine ⟨rfl, ?_, rfl, rfl, fun f h => ConcM.addedEdgesFor_mem tm clientId _ lType f h⟩
  exact ConcM.runDefers_multiset tm.pGraph.edges _

/-- C6 witness: transaction 1 requests a read lock on a resource write-held
by transaction 2 while the graph already holds the edge 2 → 1; the request is
rejected and the state restored. -/
theorem c6_deadlock_rejection_atomic_witness :
    (ConcM.lockTM (σ := Unit) (fun s _ _ => Except.ok s)
        ⟨(), ⟨[(2, 1)]⟩, [(1, ⟨[]⟩), (2, ⟨[(("t", 5), ConcM.W_LOCK)]⟩)]⟩
        1 "t" 5 ConcM.R_LOCK).2 = Except.error "contains cycle" ∧
    (↑(ConcM.lockTM (σ := Unit) (fun s _ _ => Except.ok s)
        ⟨(), ⟨[(2, 1)]⟩, [(1, ⟨[]⟩), (2, ⟨[(("t", 5), ConcM.W_LOCK)]⟩)]⟩
        1 "t" 5 ConcM.R_LOCK).1.pGraph.edges : Multiset ConcM.GEdge)
      = ↑([(2, 1)] : List ConcM.GEdge) ∧
    (ConcM.lockTM (σ := Unit) (fun s _ _ => Except.ok s)
        ⟨(), ⟨[(2, 1)]⟩, [(1, ⟨[]⟩), (2, ⟨[(("t", 5), ConcM.W_LOCK)]⟩)]⟩
        1 "t" 5 ConcM.R_LOCK).1.lm = () ∧
    (ConcM.lockTM (σ := Unit) (fun s _ _ => Except.ok s)
        ⟨(), ⟨[(2, 1)]⟩, [(1, ⟨[]⟩), (2, ⟨[(("t", 5), ConcM.W_LOCK)]⟩)]⟩
        1 "t" 5 ConcM.R_LOCK).1.transactions
      = [(1, ⟨[]⟩), (2, ⟨[(("t", 5), ConcM.W_LOCK)]⟩)] ∧
    (∀ f h : ConcM.TId,
      (f, h) ∈ ConcM.addedEdgesFor (σ := Unit)
          ⟨(), ⟨[(2, 1)]⟩, [(1, ⟨[]⟩), (2, ⟨[(("t", 5), ConcM.W_LOCK)]⟩)]⟩
          1 ("t", 5) ConcM.R_LOCK ↔
        f = 1 ∧ h ≠ 1 ∧
          ∃ htxn, (h, htxn) ∈
              [(1, (⟨[]⟩ : ConcM.Txn)), (2, ⟨[(("t", 5), ConcM.W_LOCK)]⟩)] ∧
            ConcM.conflictsWith htxn ("t", 5) ConcM.R_LOCK = true) := by
  refine c6_deadlock_rejection_atomic _ _ _ _ _ _ ⟨[]⟩ rfl rfl ?_
  · have hE : (⟨(), ⟨[(2, 1)]⟩,
        [(1, ⟨[]⟩), (2, ⟨[(("t", 5), ConcM.W_LOCK)]⟩)]⟩ :
          ConcM.TM Unit).pGraph.edges ++
        ConcM.addedEdgesFor (σ := Unit)
          ⟨(), ⟨[(2, 1)]⟩, [(1, ⟨[]⟩), (2, ⟨[(("t", 5), ConcM.W_LOCK)]⟩)]⟩
          1 ("t", 5) ConcM.R_LOCK = [(2, 1), (1, 2)] := rfl
    rw [hE]
    exact ⟨1, ConcM.Walk.cons (a := 1) (b := 2) (by simp)
      (ConcM.Walk.single (by simp))⟩

/-- C7 counterexample: transaction 1 holds the read lock on `("t", 5)` and is
the only reader, then requests the write lock.  The claim says the request is
treated as an upgrade and succeeds; the code instead returns the
"illegal lock type" error and leaves the state unchanged, for any lock
manager behaviour. -/
theorem c7_lock_upgrade_counterexample :
    ConcM.lockTM (σ := Unit) (fun s _ _ => Except.ok s)
        ⟨(), ⟨[]⟩, [(1, ⟨[(("t", 5), ConcM.R_LOCK)]⟩)]⟩
        1 "t" 5 ConcM.W_LOCK
      = (⟨(), ⟨[]⟩, [(1, ⟨[(("t", 5), ConcM.R_LOCK)]⟩)]⟩,
         Except.error "illegal lock type") := rfl

/-- C7 amended: whenever the requesting transaction already holds the
resource in a strictly lower mode than requested, `TransactionManager.Lock`
returns the "illegal lock type" error and leaves the entire transaction
manager state unchanged; no upgrade is attempted and the lock manager is
never entered. -/
theorem c7_lock_upgrade_rejected {σ : Type}
    (lmLock : σ → ConcM.Resource → ConcM.LockType → Except String σ)
    (tm : ConcM.TM σ) (clientId : ConcM.TId) (tableName : String)
    (resourceKey : Int) (lType curType : ConcM.LockType) (txn : ConcM.Txn)
    (hfound : ConcM.lookupTxn tm clientId = some txn)
    (hheld : ConcM.resourcesGet txn (tableName, resourceKey) = some curType)
    (hlower : curType < lType) :
    ConcM.lockTM lmLock tm clientId tableName resourceKey lType
      = (tm, Except.error "illegal lock type") := by
  unfold ConcM.lockTM
  rw [hfound]
  simp only [hheld]
  rw [if_neg (Nat.not_le.mpr hlower)]

/-- C7 amended witness: the general theorem applied to the counterexample
state. -/
theorem c7_lock_upgrade_rejected_witness :
    ConcM.lockTM (σ := Unit) (fun s _ _ => Except.ok s)
        ⟨(), ⟨[]⟩, [(1, ⟨[(("t", 5), ConcM.R_LOCK)]⟩)]⟩
        1 "t" 5 ConcM.W_LOCK
      = (⟨(), ⟨[]⟩, [(1, ⟨[(("t", 5), ConcM.R_LOCK)]⟩)]⟩,
         Except.error "illegal lock type") :=
  c7_lock_upgrade_rejected (fun s _ _ => Except.ok s) _ 1 "t" 5
    ConcM.W_LOCK ConcM.R_LOCK ⟨[(("t", 5), ConcM.R_LOCK)]⟩ rfl rfl
    (by decide)

namespace HashIdx

theorem bucketFind_absent {b : Bucket} {key : Int}
    (h : ∀ i < b.numKeys, getKeyAt b i ≠ key) : bucketFind b key = none := by
  unfold bucketFind
  rw [List.find?_eq_none.mpr]
  · rfl
  · intro i hi
    simp only [List.mem_range] at hi
    simp [h i hi]

theorem bucketUpdate_absent {b : Bucket} {key value : Int}
    (h : ∀ i < b.numKeys, getKeyAt b i ≠ key) :
    bucketUpdate b key value = Except.error "Can not update nonexistent key value" := by
  unfold bucketUpdate
  rw [List.find?_eq_none.mpr]
  intro i hi
  simp only [List.mem_range] at hi
  simp [h i hi]

theorem bucketDelete_absent {b : Bucket} {key : Int}
    (h : ∀ i < b.numKeys, getKeyAt b i ≠ key) :
    bucketDelete b key = Except.error "Can not delete nonexistent key" := by
  unfold bucketDelete
  rw [List.find?_eq_none.mpr]
  intro i hi
  simp only [List.mem_range] at hi
  simp [h i hi]

theorem tableFind_absent {h64 : Int → Nat} {t : HTable} {key : Int}
    {pn : Int} {b : Bucket}
    (hb : getBucket t (Hasher h64 key t.depth) = Except.ok (pn, b))
    (h : ∀ i < b.numKeys, getKeyAt b i ≠ key) :
    tableFind h64 t key = Except.error "find error: entry not found" := by
  unfold tableFind
  dsimp only
  rw [hb]
  dsimp only
  rw [bucketFind_absent h]

theorem tableUpdate_absent {h64 : Int → Nat} {t : HTable} {key value : Int}
    {pn : Int} {b : Bucket}
    (hb : getBucket t (Hasher h64 key t.depth) = Except.ok (pn, b))
    (h : ∀ i < b.numKeys, getKeyAt b i ≠ key) :
    tableUpdate h64 t key value
      = Except.error "Can not update nonexistent key value" := by
  unfold tableUpdate
  dsimp only
  rw [hb]
  dsimp only
  rw [bucketUpdate_absent h]

theorem tableDelete_absent {h64 : Int → Nat} {t : HTable} {key : Int}
    {pn : Int} {b : Bucket}
    (hb : getBucket t (Hasher h64 key t.depth) = Except.ok (pn, b))
    (h : ∀ i < b.numKeys, getKeyAt b i ≠ key) :
    tableDelete h64 t key = Except.error "Can not delete nonexistent key" := by
  unfold tableDelete
  dsimp only
  rw [hb]
  dsimp only
  rw [bucketDelete_absent h]

end HashIdx

/-- C1: Hash index round trip fails on the split path — a code bug.  With
`BUCKETSIZE = 2` and the identity hash, bucket 0 holds keys 0 and 4; the
bucket is full when key 8 (which hashes to it) is inserted, so
`HashBucket.Insert` reports overflow without storing the entry and
`HashTable.Insert` splits and returns nil.  Insert succeeds (and the split
really happened: the global depth grew to 3), yet a subsequent Find of key 8
reports "entry not found": the inserted entry was dropped. -/
theorem c1_hash_insert_dropped_on_split :
    ∃ t1, HashIdx.tableInsert (fun k => k.toNat) 2 5 HashIdx.c1Table 8 108
        = some (Except.ok t1) ∧
      t1.depth = 3 ∧
      HashIdx.tableFind (fun k => k.toNat) t1 8
        = Except.error "find error: entry not found" :=
  ⟨_, rfl, rfl, rfl⟩

namespace HashIdx

theorem writeCell_cells (b : Bucket) (i : Nat) (k v : Int) :
    (updateValueAt (updateKeyAt b i k) i v).cells
      = fun j => if j = i then (k, v) else b.cells j := by
  funext j
  unfold updateValueAt updateKeyAt
  by_cases hj : j = i <;> simp [hj]

theorem writeCell_numKeys (b : Bucket) (i : Nat) (k v : Int) :
    (updateValueAt (updateKeyAt b i k) i v).numKeys = b.numKeys := rfl

theorem writeCell_depth (b : Bucket) (i : Nat) (k v : Int) :
    (updateValueAt (updateKeyAt b i k) i v).depth = b.depth := rfl

/-- Invariant of the redistribution loop after processing the first `m`
cells: counters bounded by `m`, bucket headers untouched, cells at or above
the old-bucket write cursor still original, and the two write prefixes are
exactly the stay/move partitions of the processed prefix. -/
theorem redisLoop_invariant (h64 : Int → Nat) (d' oldHash : Nat)
    (b0 nb0 : Bucket) :
    ∀ m : Nat,
      (((List.range m).foldl (redisStep h64 d' oldHash) ⟨b0, 0, nb0, 0⟩).oc ≤ m) ∧
      (((List.range m).foldl (redisStep h64 d' oldHash) ⟨b0, 0, nb0, 0⟩).nc ≤ m) ∧
      (((List.range m).foldl (redisStep h64 d' oldHash) ⟨b0, 0, nb0, 0⟩).ob.numKeys
        = b0.numKeys) ∧
      (((List.range m).foldl (redisStep h64 d' oldHash) ⟨b0, 0, nb0, 0⟩).ob.depth
        = b0.depth) ∧
      (((List.range m).foldl (redisStep h64 d' oldHash) ⟨b0, 0, nb0, 0⟩).nb.numKeys
        = nb0.numKeys) ∧
      (((List.range m).foldl (redisStep h64 d' oldHash) ⟨b0, 0, nb0, 0⟩).nb.depth
        = nb0.depth) ∧
      (∀ j, ((List.range m).foldl (redisStep h64 d' oldHash) ⟨b0, 0, nb0, 0⟩).oc ≤ j →
        ((List.range m).foldl (redisStep h64 d' oldHash) ⟨b0, 0, nb0, 0⟩).ob.cells j
          = b0.cells j) ∧
      ((List.range
          ((List.range m).foldl (redisStep h64 d' oldHash) ⟨b0, 0, nb0, 0⟩).oc).map
          ((List.range m).foldl (redisStep h64 d' oldHash) ⟨b0, 0, nb0, 0⟩).ob.cells
        = ((List.range m).map b0.cells).filter
            (fun e => decide (Hasher h64 e.1 d' = oldHash))) ∧
      ((List.range
          ((List.range m).foldl (redisStep h64 d' oldHash) ⟨b0, 0, nb0, 0⟩).nc).map
          ((List.range m).foldl (redisStep h64 d' oldHash) ⟨b0, 0, nb0, 0⟩).nb.cells
        = ((List.range m).map b0.cells).filter
            (fun e => decide (¬ Hasher h64 e.1 d' = oldHash))) := by
  intro m
  induction m with
  | zero => simp
  | succ m ih =>
    obtain ⟨hoc, hnc, hobn, hobd, hnbn, hnbd, horig, hpre, hnpre⟩ := ih
    set acc := (List.range m).foldl (redisStep h64 d' oldHash) ⟨b0, 0, nb0, 0⟩
      with hacc
    have hstep : (List.range (m + 1)).foldl (redisStep h64 d' oldHash)
        ⟨b0, 0, nb0, 0⟩ = redisStep h64 d' oldHash acc m := by
      rw [List.range_succ, List.foldl_append, List.foldl_cons, List.foldl_nil]
    have hkey : getKeyAt acc.ob m = (b0.cells m).1 := by
      unfold getKeyAt
      rw [horig m hoc]
    have hval : getValueAt acc.ob m = (b0.cells m).2 := by
      unfold getValueAt
      rw [horig m hoc]
    have hrangemap : (List.range (m + 1)).map b0.cells
        = (List.range m).map b0.cells ++ [b0.cells m] := by
      rw [List.range_succ, List.map_append, List.map_cons, List.map_nil]
    rw [hstep]
    unfold redisStep
    rw [hkey, hval]
    by_cases hcase : Hasher h64 (b0.cells m).1 d' = oldHash
    · rw [if_pos hcase]
      refine ⟨by dsimp; omega, by dsimp; omega, ?_, ?_, hnbn, hnbd, ?_, ?_, ?_⟩
      · dsimp
        rw [writeCell_numKeys, hobn]
      · dsimp
        rw [writeCell_depth, hobd]
      · intro j hj
        dsimp at hj ⊢
        rw [writeCell_cells]
        dsimp
        rw [if_neg (by omega)]
        exact horig j (by omega)
      · dsimp
        rw [writeCell_cells, hrangemap, List.filter_append]
        have hfs : [b0.cells m].filter
            (fun e => decide (Hasher h64 e.1 d' = oldHash)) = [b0.cells m] := by
          simp [hcase]
        rw [hfs, List.range_succ, List.map_append, List.map_cons, List.map_nil]
        congr 1
        · rw [← hpre]
          apply List.map_congr_left
          intro j hj
          simp only [List.mem_range] at hj
          dsimp
          rw [if_neg (by omega)]
        · dsimp
          rw [if_pos rfl]
      · dsimp
        rw [hnpre, hrangemap, List.filter_append]
        have hfm : [b0.cells m].filter
            (fun e => decide (¬ Hasher h64 e.1 d' = oldHash)) = [] := by
          simp [hcase]
        rw [hfm, List.append_nil]
    · rw [if_neg hcase]
      refine ⟨by dsimp; omega, by dsimp; omega, hobn, hobd, ?_, ?_, ?_, ?_, ?_⟩
      · dsimp
        rw [writeCell_numKeys, hnbn]
      · dsimp
        rw [writeCell_depth, hnbd]
      · intro j hj
        dsimp at hj ⊢
        exact horig j hj
      · dsimp
        rw [hpre, hrangemap, List.filter_append]
        have hfs : [b0.cells m].filter
            (fun e => decide (Hasher h64 e.1 d' = oldHash)) = [] := by
          simp [hcase]
        rw [hfs, List.append_nil]
      · dsimp
        rw [writeCell_cells, hrangemap, List.filter_append]
        have hfm : [b0.cells m].filter
            (fun e => decide (¬ Hasher h64 e.1 d' = oldHash)) = [b0.cells m] := by
          simp [hcase]
        rw [hfm, List.range_succ, List.map_append, List.map_cons, List.map_nil]
        congr 1
        · rw [← hnpre]
          apply List.map_congr_left
          intro j hj
          simp only [List.mem_range] at hj
          dsimp
          rw [if_neg (by omega)]
        · dsimp
          rw [if_pos rfl]

end HashIdx

namespace HashIdx

theorem get?_set_self' {α : Type} (l : List α) (i : Nat) (x : α) :
    (l.set i x).get? i = if i < l.length then some x else none := by
  induction l generalizing i with
  | nil => simp
  | cons a l ih =>
    cases i with
    | zero => simp
    | succ i =>
      simp only [List.set, List.get?]
      rw [ih]
      by_cases h : i < l.length <;> simp [h, Nat.succ_lt_succ_iff]

theorem get?_set_ne' {α : Type} (l : List α) (i j : Nat) (x : α)
    (h : i ≠ j) : (l.set i x).get? j = l.get? j := by
  induction l generalizing i j with
  | nil => rfl
  | cons a l ih =>
    cases i with
    | zero =>
      cases j with
      | zero => exact absurd rfl h
      | succ j => rfl
    | succ i =>
      cases j with
      | zero => rfl
      | succ j => exact ih i j (fun hc => h (by rw [hc]))

theorem dirStep_eq (mask newHash : Nat) (newPN : Int) (bs : List Int)
    (i : Nat) : dirStep mask newHash newPN bs i
      = if i &&& mask = newHash then bs.set i newPN else bs := rfl

theorem dirStep_length (mask newHash : Nat) (newPN : Int) (bs : List Int)
    (i : Nat) : (dirStep mask newHash newPN bs i).length = bs.length := by
  unfold dirStep
  split
  · exact List.length_set _ _ _
  · rfl

theorem foldl_dirStep_length (mask newHash : Nat) (newPN : Int) :
    ∀ (l : List Nat) (bs : List Int),
      (l.foldl (dirStep mask newHash newPN) bs).length = bs.length := by
  intro l
  induction l with
  | nil => intro bs; rfl
  | cons i l ih =>
    intro bs
    rw [List.foldl_cons, ih, dirStep_length]

theorem foldl_dirStep_get? (mask newHash : Nat) (newPN : Int) :
    ∀ (n : Nat) (bs : List Int) (i : Nat),
      ((List.range n).foldl (dirStep mask newHash newPN) bs).get? i
        = if i &&& mask = newHash ∧ i < n ∧ i < bs.length then some newPN
          else bs.get? i := by
  intro n
  induction n with
  | zero =>
    intro bs i
    rw [if_neg (by omega)]
    rfl
  | succ n ih =>
    intro bs i
    have hstep : (List.range (n + 1)).foldl (dirStep mask newHash newPN) bs
        = dirStep mask newHash newPN
            ((List.range n).foldl (dirStep mask newHash newPN) bs) n := by
      rw [List.range_succ, List.foldl_append, List.foldl_cons, List.foldl_nil]
    have hAlen : ((List.range n).foldl (dirStep mask newHash newPN) bs).length
        = bs.length := foldl_dirStep_length _ _ _ _ _
    rw [hstep, dirStep_eq]
    by_cases hc : n &&& mask = newHash
    · rw [if_pos hc]
      rcases eq_or_ne i n with heq | hne
      · subst heq
        rw [get?_set_self', hAlen]
        by_cases hlt : i < bs.length
        · rw [if_pos hlt, if_pos ⟨hc, by omega, hlt⟩]
        · rw [if_neg hlt, if_neg (by tauto)]
          exact (List.get?_eq_none.mpr (by omega)).symm
      · rw [get?_set_ne' _ _ _ _ (fun hcc => hne hcc.symm), ih]
        by_cases hcond : i &&& mask = newHash ∧ i < n ∧ i < bs.length
        · rw [if_pos hcond, if_pos ⟨hcond.1, by omega, hcond.2.2⟩]
        · rw [if_neg hcond, if_neg (by
            rintro ⟨h1, h2, h3⟩
            exact hcond ⟨h1, by omega, h3⟩)]
    · rw [if_neg hc, ih]
      rcases eq_or_ne i n with heq | hne
      · subst heq
        rw [if_neg (by tauto), if_neg (by tauto)]
      · by_cases hcond : i &&& mask = newHash ∧ i < n ∧ i < bs.length
        · rw [if_pos hcond, if_pos ⟨hcond.1, by omega, hcond.2.2⟩]
        · rw [if_neg hcond, if_neg (by
            rintro ⟨h1, h2, h3⟩
            exact hcond ⟨h1, by omega, h3⟩)]

theorem dirLoop_get? (buckets : List Int) (depth mask newHash : Nat)
    (newPN : Int) (hlen : buckets.length = 2 ^ depth) (i : Nat) :
    (dirLoop buckets depth mask newHash newPN).get? i
      = if i &&& mask = newHash ∧ i < buckets.length then some newPN
        else buckets.get? i := by
  unfold dirLoop
  rw [foldl_dirStep_get?]
  by_cases hcond : i &&& mask = newHash ∧ i < buckets.length
  · rw [if_pos ⟨hcond.1, by omega, hcond.2⟩, if_pos hcond]
  · rw [if_neg (by
      rintro ⟨h1, h2, h3⟩
      exact hcond ⟨h1, h3⟩), if_neg hcond]

theorem dirLoop_length (buckets : List Int) (depth mask newHash : Nat)
    (newPN : Int) : (dirLoop buckets depth mask newHash newPN).length
      = buckets.length :=
  foldl_dirStep_length _ _ _ _ _

end HashIdx

open HashIdx in
/-- Unfolding of one `Split` call with fuel left. -/
theorem split_succ_eq (h64 : Int → Nat) (fuel : Nat) (t : HTable) (bpn : Int)
    (bucket : Bucket) (hash : Nat) :
    split h64 (fuel + 1) t bpn bucket hash =
      if (splitParts h64 t bpn bucket hash).1.numKeys = 0 then
        split h64 fuel (splitParts h64 t bpn bucket hash).2.2 t.nextPN
          (splitParts h64 t bpn bucket hash).2.1
          (hash % 2 ^ bucket.depth + 2 ^ bucket.depth)
      else if (splitParts h64 t bpn bucket hash).2.1.numKeys = 0 then
        split h64 fuel (splitParts h64 t bpn bucket hash).2.2 bpn
          (splitParts h64 t bpn bucket hash).1 (hash % 2 ^ bucket.depth)
      else some (splitParts h64 t bpn bucket hash).2.2 := rfl

open HashIdx in
/-- C4: Extendible-hash split.  For any overflowing bucket: the directory is
doubled (copying entries) exactly when `localDepth = globalDepth` (conjuncts
8-9, and the directory formula's else-branch reads the doubled copy in that
case); the old bucket's entries are redistributed between the old bucket and
a new bucket of depth `localDepth+1` according to `Hasher(k, localDepth+1)`
(stay on the old hash, move otherwise — conjuncts 1-4); exactly the
directory slots `i` with `i &&& ((1 <<< newDepth) - 1) = newHash` are
repointed at the new bucket's page (last conjunct); and the split recurses on
whichever bucket received everything when the other is empty, otherwise the
updated state is returned (first conjunct). -/
theorem c4_extendible_hash_split (h64 : Int → Nat) (fuel : Nat) (t : HTable)
    (bpn : Int) (bucket : Bucket) (hash : Nat)
    (hlen : t.buckets.length = 2 ^ t.depth)
    (hbpn : bpn ≠ t.nextPN) :
    (split h64 (fuel + 1) t bpn bucket hash =
      if (bucketEntries bucket).filter
          (fun e => decide (Hasher h64 e.1 (bucket.depth + 1)
            = hash % 2 ^ bucket.depth)) = [] then
        split h64 fuel (splitParts h64 t bpn bucket hash).2.2 t.nextPN
          (splitParts h64 t bpn bucket hash).2.1
          (hash % 2 ^ bucket.depth + 2 ^ bucket.depth)
      else if (bucketEntries bucket).filter
          (fun e => decide (¬ Hasher h64 e.1 (bucket.depth + 1)
            = hash % 2 ^ bucket.depth)) = [] then
        split h64 fuel (splitParts h64 t bpn bucket hash).2.2 bpn
          (splitParts h64 t bpn bucket hash).1 (hash % 2 ^ bucket.depth)
      else some (splitParts h64 t bpn bucket hash).2.2) ∧
    bucketEntries (splitParts h64 t bpn bucket hash).1
      = (bucketEntries bucket).filter
          (fun e => decide (Hasher h64 e.1 (bucket.depth + 1)
            = hash % 2 ^ bucket.depth)) ∧
    (splitParts h64 t bpn bucket hash).1.depth = bucket.depth + 1 ∧
    bucketEntries (splitParts h64 t bpn bucket hash).2.1
      = (bucketEntries bucket).filter
          (fun e => decide (¬ Hasher h64 e.1 (bucket.depth + 1)
            = hash % 2 ^ bucket.depth)) ∧
    (splitParts h64 t bpn bucket hash).2.1.depth = bucket.depth + 1 ∧
    (splitParts h64 t bpn bucket hash).2.2.pages bpn
      = some (splitParts h64 t bpn bucket hash).1 ∧
    (splitParts h64 t bpn bucket hash).2.2.pages t.nextPN
      = some (splitParts h64 t bpn bucket hash).2.1 ∧
    (splitParts h64 t bpn bucket hash).2.2.nextPN = t.nextPN + 1 ∧
    (bucket.depth = t.depth →
      (splitParts h64 t bpn bucket hash).2.2.depth = t.depth + 1 ∧
      (splitParts h64 t bpn bucket hash).2.2.buckets.length
        = 2 * t.buckets.length) ∧
    (bucket.depth ≠ t.depth →
      (splitParts h64 t bpn bucket hash).2.2.depth = t.depth ∧
      (splitParts h64 t bpn bucket hash).2.2.buckets.length
        = t.buckets.length) ∧
    (∀ i, (splitParts h64 t bpn bucket hash).2.2.buckets.get? i =
      if i &&& (2 ^ (bucket.depth + 1) - 1)
          = hash % 2 ^ bucket.depth + 2 ^ bucket.depth
        ∧ i < (splitParts h64 t bpn bucket hash).2.2.buckets.length
      then some t.nextPN
      else (if bucket.depth = t.depth then t.buckets ++ t.buckets
            else t.buckets).get? i) := by
  obtain ⟨hoc', hnc', hobn, hobd, hnbn, hnbd, horig, hpre, hnpre⟩ :=
    redisLoop_invariant h64 (bucket.depth + 1) (hash % 2 ^ bucket.depth)
      (updateDepth bucket (bucket.depth + 1))
      ⟨bucket.depth + 1, 0, fun _ => (0, 0)⟩ bucket.numKeys
  have hacc : redisLoop h64 (bucket.depth + 1) (hash % 2 ^ bucket.depth)
      (updateDepth bucket (bucket.depth + 1))
      ⟨bucket.depth + 1, 0, fun _ => (0, 0)⟩
      = (List.range bucket.numKeys).foldl
        (redisStep h64 (bucket.depth + 1) (hash % 2 ^ bucket.depth))
        ⟨updateDepth bucket (bucket.depth + 1), 0,
          ⟨bucket.depth + 1, 0, fun _ => (0, 0)⟩, 0⟩ := rfl
  rw [← hacc] at hoc' hnc' hobn hobd hnbn hnbd horig hpre hnpre
  set acc := redisLoop h64 (bucket.depth + 1) (hash % 2 ^ bucket.depth)
    (updateDepth bucket (bucket.depth + 1))
    ⟨bucket.depth + 1, 0, fun _ => (0, 0)⟩ with haccdef
  have hob1 : (splitParts h64 t bpn bucket hash).1
      = updateNumKeys acc.ob acc.oc := rfl
  have hnb1 : (splitParts h64 t bpn bucket hash).2.1
      = updateNumKeys acc.nb acc.nc := rfl
  have hnext1 : (if bucket.depth = t.depth then extendTable t else t).nextPN
      = t.nextPN := by
    split <;> rfl
  have hdep1 : (if bucket.depth = t.depth then extendTable t else t).depth
      = if bucket.depth = t.depth then t.depth + 1 else t.depth := by
    split <;> simp [extendTable]
  have hbuck1 : (if bucket.depth = t.depth then extendTable t else t).buckets
      = if bucket.depth = t.depth then t.buckets ++ t.buckets else t.buckets := by
    split <;> rfl
  have hlen1 : (if bucket.depth = t.depth then extendTable t else t).buckets.length
      = 2 ^ (if bucket.depth = t.depth then extendTable t else t).depth := by
    rw [hbuck1, hdep1]
    split
    · rw [List.length_append, hlen]
      ring
    · exact hlen
  have ht3 : (splitParts h64 t bpn bucket hash).2.2
      = setPage (setPage
          { setPage (if bucket.depth = t.depth then extendTable t else t)
              (if bucket.depth = t.depth then extendTable t else t).nextPN
              ⟨bucket.depth + 1, 0, fun _ => (0, 0)⟩ with
            nextPN := (if bucket.depth = t.depth then extendTable t else t).nextPN + 1,
            buckets := dirLoop
              (if bucket.depth = t.depth then extendTable t else t).buckets
              (if bucket.depth = t.depth then extendTable t else t).depth
              (2 ^ (bucket.depth + 1) - 1)
              (hash % 2 ^ bucket.depth + 2 ^ bucket.depth)
              (if bucket.depth = t.depth then extendTable t else t).nextPN }
          bpn (updateNumKeys acc.ob acc.oc))
        (if bucket.depth = t.depth then extendTable t else t).nextPN
        (updateNumKeys acc.nb acc.nc) := rfl
  have hstays : bucketEntries (splitParts h64 t bpn bucket hash).1
      = (bucketEntries bucket).filter
          (fun e => decide (Hasher h64 e.1 (bucket.depth + 1)
            = hash % 2 ^ bucket.depth)) := by
    rw [hob1]
    exact hpre
  have hmoves : bucketEntries (splitParts h64 t bpn bucket hash).2.1
      = (bucketEntries bucket).filter
          (fun e => decide (¬ Hasher h64 e.1 (bucket.depth + 1)
            = hash % 2 ^ bucket.depth)) := by
    rw [hnb1]
    exact hnpre
  have hocl : (splitParts h64 t bpn bucket hash).1.numKeys
      = ((bucketEntries bucket).filter
          (fun e => decide (Hasher h64 e.1 (bucket.depth + 1)
            = hash % 2 ^ bucket.depth))).length := by
    have h1 := congrArg List.length hstays
    unfold bucketEntries at h1
    simpa using h1
  have hncl : (splitParts h64 t bpn bucket hash).2.1.numKeys
      = ((bucketEntries bucket).filter
          (fun e => decide (¬ Hasher h64 e.1 (bucket.depth + 1)
            = hash % 2 ^ bucket.depth))).length := by
    have h1 := congrArg List.length hmoves
    unfold bucketEntries at h1
    simpa using h1
  refine ⟨?_, hstays, hobd, hmoves, hnbd, ?_, ?_, ?_, ?_, ?_, ?_⟩
  · rw [split_succ_eq]
    by_cases h0 : (bucketEntries bucket).filter
        (fun e => decide (Hasher h64 e.1 (bucket.depth + 1)
          = hash % 2 ^ bucket.depth)) = []
    · rw [if_pos (by rw [hocl, h0]; rfl), if_pos h0]
    · rw [if_neg (by rw [hocl]; simpa using h0), if_neg h0]
      by_cases h1 : (bucketEntries bucket).filter
          (fun e => decide (¬ Hasher h64 e.1 (bucket.depth + 1)
            = hash % 2 ^ bucket.depth)) = []
      · rw [if_pos (by rw [hncl, h1]; rfl), if_pos h1]
      · rw [if_neg (by rw [hncl]; simpa using h1), if_neg h1]
  · rw [ht3, hob1]
    unfold setPage
    dsimp only
    rw [if_neg (by rw [hnext1]; exact hbpn), if_pos rfl]
  · rw [ht3, hnb1]
    unfold setPage
    dsimp only
    rw [hnext1, if_pos rfl]
  · rw [ht3]
    unfold setPage
    dsimp only
    rw [hnext1]
  · intro heq
    rw [ht3]
    unfold setPage
    dsimp only
    constructor
    · rw [hdep1, if_pos heq]
    · rw [dirLoop_length, hbuck1, if_pos heq, List.length_append]
      omega
  · intro hne
    rw [ht3]
    unfold setPage
    dsimp only
    constructor
    · rw [hdep1, if_neg hne]
    · rw [dirLoop_length, hbuck1, if_neg hne]
  · intro i
    rw [ht3]
    unfold setPage
    dsimp only
    rw [dirLoop_get? _ _ _ _ _ hlen1, dirLoop_length, hbuck1, hnext1]

open HashIdx in
/-- C4 witness: the split characterization applied to the concrete full
bucket of `c1Table` overflowing at hash 0. -/
theorem c4_extendible_hash_split_witness :
    c1Table.buckets.length = 2 ^ c1Table.depth ∧
    (0 : Int) ≠ c1Table.nextPN ∧
    ((split (fun k => k.toNat) (1 + 1) c1Table 0 c1FullBucket 0 =
      if (bucketEntries c1FullBucket).filter
          (fun e => decide (Hasher (fun k => k.toNat) e.1 (c1FullBucket.depth + 1)
            = 0 % 2 ^ c1FullBucket.depth)) = [] then
        split (fun k => k.toNat) 1 (splitParts (fun k => k.toNat) c1Table 0 c1FullBucket 0).2.2 c1Table.nextPN
          (splitParts (fun k => k.toNat) c1Table 0 c1FullBucket 0).2.1
          (0 % 2 ^ c1FullBucket.depth + 2 ^ c1FullBucket.depth)
      else if (bucketEntries c1FullBucket).filter
          (fun e => decide (¬ Hasher (fun k => k.toNat) e.1 (c1FullBucket.depth + 1)
            = 0 % 2 ^ c1FullBucket.depth)) = [] then
        split (fun k => k.toNat) 1 (splitParts (fun k => k.toNat) c1Table 0 c1FullBucket 0).2.2 0
          (splitParts (fun k => k.toNat) c1Table 0 c1FullBucket 0).1 (0 % 2 ^ c1FullBucket.depth)
      else some (splitParts (fun k => k.toNat) c1Table 0 c1FullBucket 0).2.2) ∧
    bucketEntries (splitParts (fun k => k.toNat) c1Table 0 c1FullBucket 0).1
      = (bucketEntries c1FullBucket).filter
          (fun e => decide (Hasher (fun k => k.toNat) e.1 (c1FullBucket.depth + 1)
            = 0 % 2 ^ c1FullBucket.depth)) ∧
    (splitParts (fun k => k.toNat) c1Table 0 c1FullBucket 0).1.depth = c1FullBucket.depth + 1 ∧
    bucketEntries (splitParts (fun k => k.toNat) c1Table 0 c1FullBucket 0).2.1
      = (bucketEntries c1FullBucket).filter
          (fun e => decide (¬ Hasher (fun k => k.toNat) e.1 (c1FullBucket.depth + 1)
            = 0 % 2 ^ c1FullBucket.depth)) ∧
    (splitParts (fun k => k.toNat) c1Table 0 c1FullBucket 0).2.1.depth = c1FullBucket.depth + 1 ∧
    (splitParts (fun k => k.toNat) c1Table 0 c1FullBucket 0).2.2.pages 0
      = some (splitParts (fun k => k.toNat) c1Table 0 c1FullBucket 0).1 ∧
    (splitParts (fun k => k.toNat) c1Table 0 c1FullBucket 0).2.2.pages c1Table.nextPN
      = some (splitParts (fun k => k.toNat) c1Table 0 c1FullBucket 0).2.1 ∧
    (splitParts (fun k => k.toNat) c1Table 0 c1FullBucket 0).2.2.nextPN = c1Table.nextPN + 1 ∧
    (c1FullBucket.depth = c1Table.depth →
      (splitParts (fun k => k.toNat) c1Table 0 c1FullBucket 0).2.2.depth = c1Table.depth + 1 ∧
      (splitParts (fun k => k.toNat) c1Table 0 c1FullBucket 0).2.2.buckets.length
        = 2 * c1Table.buckets.length) ∧
    (c1FullBucket.depth ≠ c1Table.depth →
      (splitParts (fun k => k.toNat) c1Table 0 c1FullBucket 0).2.2.depth = c1Table.depth ∧
      (splitParts (fun k => k.toNat) c1Table 0 c1FullBucket 0).2.2.buckets.length
        = c1Table.buckets.length) ∧
    (∀ i, (splitParts (fun k => k.toNat) c1Table 0 c1FullBucket 0).2.2.buckets.get? i =
      if i &&& (2 ^ (c1FullBucket.depth + 1) - 1)
          = 0 % 2 ^ c1FullBucket.depth + 2 ^ c1FullBucket.depth
        ∧ i < (splitParts (fun k => k.toNat) c1Table 0 c1FullBucket 0).2.2.buckets.length
      then some c1Table.nextPN
      else (if c1FullBucket.depth = c1Table.depth then c1Table.buckets ++ c1Table.buckets
            else c1Table.buckets).get? i)) :=
  ⟨rfl, by decide,
    c4_extendible_hash_split (fun k => k.toNat) 1 c1Table 0 c1FullBucket 0
      rfl (by decide)⟩

/-- C5: B+-tree range query — code bug.  On a tree holding exactly `(1, 10)`,
`TableFindRange(1, 2)` should return `[(1, 10)]` (the second conjunct shows
that is exactly the stored-entry set in `[1, 2)`), but after appending the
entry the cursor steps past the last cell and the subsequent `GetEntry` error
is returned as the result, so the call returns the error instead of the
entries. -/
theorem c5_range_errors_at_table_end :
    BTreeIdx.tableFindRange BTreeIdx.c5Tree 10 1 2
        = some (Except.error "getEntry: entry is non-existent") ∧
    (BTreeIdx.leafEntries BTreeIdx.c5Leaf).filter
        (fun e => decide (1 ≤ e.1 ∧ e.1 < 2)) = [(1, 10)] :=
  ⟨rfl, rfl⟩

namespace BTreeIdx

theorem writeCellL_cells (node : LeafN) (i : Nat) (k v : Int) :
    (updateValueAt (updateKeyAt node i k) i v).cells
      = fun j => if j = i then (k, v) else node.cells j := by
  funext j
  unfold updateValueAt updateKeyAt
  by_cases hj : j = i <;> simp [hj]

/-- The copy loop of `LeafNode.split` writes `node.cells (half + j)` to slot
`j` of the fresh right node and touches nothing else. -/
theorem copyLoop_spec (node : LeafN) (half : Nat) :
    ∀ (k : Nat) (init : LeafN),
      (∀ j, j < k →
        ((List.range' half k).foldl
          (fun acc i =>
            updateValueAt (updateKeyAt acc (i - half) (getKeyAt node i)) (i - half)
              (getValueAt node i)) init).cells j = node.cells (half + j)) ∧
      (∀ j, k ≤ j →
        ((List.range' half k).foldl
          (fun acc i =>
            updateValueAt (updateKeyAt acc (i - half) (getKeyAt node i)) (i - half)
              (getValueAt node i)) init).cells j = init.cells j) ∧
      ((List.range' half k).foldl
        (fun acc i =>
          updateValueAt (updateKeyAt acc (i - half) (getKeyAt node i)) (i - half)
            (getValueAt node i)) init).numKeys = init.numKeys ∧
      ((List.range' half k).foldl
        (fun acc i =>
          updateValueAt (updateKeyAt acc (i - half) (getKeyAt node i)) (i - half)
            (getValueAt node i)) init).rightSiblingPN = init.rightSiblingPN ∧
      ((List.range' half k).foldl
        (fun acc i =>
          updateValueAt (updateKeyAt acc (i - half) (getKeyAt node i)) (i - half)
            (getValueAt node i)) init).pn = init.pn := by
  intro k
  induction k with
  | zero =>
    intro init
    exact ⟨fun j hj => absurd hj (by omega), fun j _ => rfl, rfl, rfl, rfl⟩
  | succ k ih =>
    intro init
    obtain ⟨hlow, hhigh, hnum, hsib, hpn⟩ := ih init
    have hconcat : List.range' half (k + 1) = List.range' half k ++ [half + k] := by
      simpa using @List.range'_concat 1 half k
    rw [hconcat, List.foldl_append, List.foldl_cons, List.foldl_nil]
    set A := (List.range' half k).foldl
      (fun acc i =>
        updateValueAt (updateKeyAt acc (i - half) (getKeyAt node i)) (i - half)
          (getValueAt node i)) init with hA
    have hidx : half + k - half = k := by omega
    have hcells : (updateValueAt (updateKeyAt A (half + k - half) (getKeyAt node (half + k)))
        (half + k - half) (getValueAt node (half + k))).cells
      = fun j => if j = k then (getKeyAt node (half + k), getValueAt node (half + k))
                 else A.cells j := by
      rw [hidx]
      exact writeCellL_cells A k _ _
    refine ⟨?_, ?_, ?_, ?_, ?_⟩
    · intro j hj
      rw [hcells]
      dsimp only
      rcases eq_or_ne j k with hjk | hjk
      · subst hjk
        rw [if_pos rfl]
        unfold getKeyAt getValueAt
        rfl
      · rw [if_neg hjk]
        exact hlow j (by omega)
    · intro j hj
      rw [hcells]
      dsimp only
      rw [if_neg (by omega)]
      exact hhigh j (by omega)
    · show (updateValueAt (updateKeyAt A _ _) _ _).numKeys = init.numKeys
      unfold updateValueAt updateKeyAt
      exact hnum
    · show (updateValueAt (updateKeyAt A _ _) _ _).rightSiblingPN = init.rightSiblingPN
      unfold updateValueAt updateKeyAt
      exact hsib
    · show (updateValueAt (updateKeyAt A _ _) _ _).pn = init.pn
      unfold updateValueAt updateKeyAt
      exact hpn

theorem map_range_take {α : Type} (f : Nat → α) (n k : Nat) (h : k ≤ n) :
    ((List.range n).map f).take k = (List.range k).map f := by
  have hmin : min k n = k := by omega
  rw [← List.map_take, List.take_range, hmin]

theorem map_range_drop {α : Type} (f : Nat → α) (n k : Nat) :
    ((List.range n).map f).drop k = (List.range (n - k)).map (fun j => f (k + j)) := by
  apply List.ext_getElem
  · simp
  · intro i h1 h2
    simp only [List.getElem_drop, List.getElem_map, List.getElem_range]

theorem leafSplit_no (E : Nat) (node : LeafN) (freshPN : Int)
    (h : node.numKeys < E) :
    leafSplit E node freshPN = (node, none, ⟨false, 0, 0, 0, none⟩) := by
  unfold leafSplit
  rw [if_pos h]

theorem leafSplit_yes_eq (E : Nat) (node : LeafN) (freshPN : Int)
    (h : ¬ node.numKeys < E) :
    leafSplit E node freshPN =
      ({ updateNumKeys node (node.numKeys / 2) with rightSiblingPN := freshPN },
       some { updateNumKeys
          ((List.range' (node.numKeys / 2) (node.numKeys - node.numKeys / 2)).foldl
            (fun acc i =>
              updateValueAt (updateKeyAt acc (i - node.numKeys / 2) (getKeyAt node i))
                (i - node.numKeys / 2) (getValueAt node i))
            ⟨0, fun _ => (0, 0), NOPAGE, freshPN⟩)
          (node.numKeys - node.numKeys / 2) with
          rightSiblingPN := node.rightSiblingPN },
       ⟨true, getKeyAt { updateNumKeys
          ((List.range' (node.numKeys / 2) (node.numKeys - node.numKeys / 2)).foldl
            (fun acc i =>
              updateValueAt (updateKeyAt acc (i - node.numKeys / 2) (getKeyAt node i))
                (i - node.numKeys / 2) (getValueAt node i))
            ⟨0, fun _ => (0, 0), NOPAGE, freshPN⟩)
          (node.numKeys - node.numKeys / 2) with
          rightSiblingPN := node.rightSiblingPN } 0, node.pn, freshPN, none⟩) := by
  unfold leafSplit
  rw [if_neg h]

theorem leafSplit_yes (E : Nat) (node : LeafN) (freshPN : Int)
    (hE : 0 < E) (h : ¬ node.numKeys < E) :
    (leafSplit E node freshPN).2.2
        = ⟨true, (node.cells (node.numKeys / 2)).1, node.pn, freshPN, none⟩ ∧
    (leafSplit E node freshPN).1.numKeys = node.numKeys / 2 ∧
    (leafSplit E node freshPN).1.rightSiblingPN = freshPN ∧
    (leafSplit E node freshPN).1.cells = node.cells ∧
    (leafSplit E node freshPN).1.pn = node.pn ∧
    leafEntries (leafSplit E node freshPN).1
      = (leafEntries node).take (node.numKeys / 2) ∧
    ((leafSplit E node freshPN).2.1).map leafEntries
      = some ((leafEntries node).drop (node.numKeys / 2)) ∧
    ((leafSplit E node freshPN).2.1).map (fun r => r.rightSiblingPN)
      = some node.rightSiblingPN ∧
    ((leafSplit E node freshPN).2.1).map (fun r => r.numKeys)
      = some (node.numKeys - node.numKeys / 2) := by
  obtain ⟨hlow, hhigh, hnum, hsib, hpn⟩ :=
    copyLoop_spec node (node.numKeys / 2) (node.numKeys - node.numKeys / 2)
      ⟨0, fun _ => (0, 0), NOPAGE, freshPN⟩
  rw [leafSplit_yes_eq E node freshPN h]
  have h0 : (0 : Nat) < node.numKeys - node.numKeys / 2 := by omega
  refine ⟨?_, rfl, rfl, rfl, rfl, ?_, ?_, rfl, rfl⟩
  · show (⟨true, getKeyAt _ 0, node.pn, freshPN, none⟩ : SplitR) = _
    have hk : getKeyAt { updateNumKeys
        ((List.range' (node.numKeys / 2) (node.numKeys - node.numKeys / 2)).foldl
          (fun acc i =>
            updateValueAt (updateKeyAt acc (i - node.numKeys / 2) (getKeyAt node i))
              (i - node.numKeys / 2) (getValueAt node i))
          ⟨0, fun _ => (0, 0), NOPAGE, freshPN⟩)
        (node.numKeys - node.numKeys / 2) with
        rightSiblingPN := node.rightSiblingPN } 0
        = (node.cells (node.numKeys / 2)).1 := by
      have h1 := hlow 0 h0
      rw [Nat.add_zero] at h1
      exact congrArg Prod.fst h1
    rw [hk]
  · show leafEntries { updateNumKeys node (node.numKeys / 2) with
      rightSiblingPN := freshPN } = _
    unfold leafEntries updateNumKeys
    dsimp only
    rw [map_range_take _ _ _ (by omega)]
  · show some (leafEntries _) = _
    congr 1
    unfold leafEntries updateNumKeys
    dsimp only
    rw [map_range_drop]
    apply List.map_congr_left
    intro j hj
    simp only [List.mem_range] at hj
    rw [hlow j hj]

theorem leafInsert_absent (E : Nat) (node : LeafN) (key value : Int)
    (freshPN : Int)
    (habs : ∀ i < node.numKeys, getKeyAt node i ≠ key) :
    leafInsert E node key value false freshPN
      = leafSplit E (leafStore node (leafSearch node key) key value) freshPN := by
  have hcond : ¬ (leafSearch node key < node.numKeys ∧
      getKeyAt node (leafSearch node key) = key) := by
    rintro ⟨h1, h2⟩
    exact habs _ h1 h2
  unfold leafInsert
  dsimp only
  rw [if_neg Bool.false_ne_true, if_neg hcond]

theorem leafStore_numKeys (node : LeafN) (idx : Nat) (key value : Int) :
    (leafStore node idx key value).numKeys = node.numKeys + 1 := rfl

end BTreeIdx

namespace BTreeIdx

theorem foldl_shift_fields :
    ∀ (l : List Nat) (acc : LeafN),
      ((l.foldl (fun acc i =>
        let acc1 := updateValueAt acc (i + 1) (getValueAt acc i)
        updateKeyAt acc1 (i + 1) (getKeyAt acc1 i)) acc).numKeys = acc.numKeys) ∧
      ((l.foldl (fun acc i =>
        let acc1 := updateValueAt acc (i + 1) (getValueAt acc i)
        updateKeyAt acc1 (i + 1) (getKeyAt acc1 i)) acc).rightSiblingPN
          = acc.rightSiblingPN) ∧
      ((l.foldl (fun acc i =>
        let acc1 := updateValueAt acc (i + 1) (getValueAt acc i)
        updateKeyAt acc1 (i + 1) (getKeyAt acc1 i)) acc).pn = acc.pn) := by
  intro l
  induction l with
  | nil => intro acc; exact ⟨rfl, rfl, rfl⟩
  | cons i l ih =>
    intro acc
    rw [List.foldl_cons]
    exact ih _

theorem shiftRight_fields (node : LeafN) (idx : Nat) :
    (shiftRight node idx).numKeys = node.numKeys ∧
    (shiftRight node idx).rightSiblingPN = node.rightSiblingPN ∧
    (shiftRight node idx).pn = node.pn :=
  foldl_shift_fields _ node

theorem leafStore_fields (node : LeafN) (idx : Nat) (key value : Int) :
    (leafStore node idx key value).numKeys = node.numKeys + 1 ∧
    (leafStore node idx key value).rightSiblingPN = node.rightSiblingPN ∧
    (leafStore node idx key value).pn = node.pn := by
  obtain ⟨h1, h2, h3⟩ := shiftRight_fields node idx
  exact ⟨rfl, h2, h3⟩

end BTreeIdx

/-- C3 counterexample: with `ENTRIES_PER_LEAF_NODE = 2`, inserting key 2 into
the one-entry leaf `[(1, 10)]` brings `numKeys` to exactly 2, which does not
exceed `ENTRIES_PER_LEAF_NODE`, yet the code performs a split: node.go:106
splits whenever `numKeys < ENTRIES_PER_LEAF_NODE` fails, i.e. already at
equality, not only strictly above it. -/
theorem c3_leaf_split_trigger_counterexample :
    (BTreeIdx.leafInsert 2 BTreeIdx.c3Leaf 2 20 false 99).2.2.isSplit = true ∧
    (BTreeIdx.leafStore BTreeIdx.c3Leaf
      (BTreeIdx.leafSearch BTreeIdx.c3Leaf 2) 2 20).numKeys = 2 ∧
    ¬ ((2 : Nat) > 2) :=
  ⟨rfl, rfl, by decide⟩

open BTreeIdx in
/-- C3 amended: after inserting a new key into a leaf, a split occurs exactly
when the post-insert `numKeys` is at least (not strictly greater than)
`ENTRIES_PER_LEAF_NODE`; the split then moves cells `numKeys/2 … numKeys-1`
to the newly allocated right leaf `R` at page `freshPN`, splices `R` into the
sibling chain (`R.right = old.right; old.right = R`), and propagates
`(separatorKey = R.keys[0] = cell numKeys/2, leftPN = old.pn,
rightPN = freshPN)` upward. -/
theorem c3_leaf_insert_split (E : Nat) (node : LeafN) (key value freshPN : Int)
    (hE : 0 < E)
    (habs : ∀ i < node.numKeys, getKeyAt node i ≠ key) :
    (leafInsert E node key value false freshPN
        = leafSplit E (leafStore node (leafSearch node key) key value) freshPN) ∧
    (leafStore node (leafSearch node key) key value).numKeys
        = node.numKeys + 1 ∧
    ((leafSplit E (leafStore node (leafSearch node key) key value)
        freshPN).2.2.isSplit = true ↔
      E ≤ node.numKeys + 1) ∧
    (node.numKeys + 1 < E →
      leafSplit E (leafStore node (leafSearch node key) key value) freshPN
        = (leafStore node (leafSearch node key) key value, none,
           ⟨false, 0, 0, 0, none⟩)) ∧
    (E ≤ node.numKeys + 1 →
      (leafSplit E (leafStore node (leafSearch node key) key value)
          freshPN).2.2
        = ⟨true,
           ((leafStore node (leafSearch node key) key value).cells
             ((node.numKeys + 1) / 2)).1,
           node.pn, freshPN, none⟩ ∧
      (leafSplit E (leafStore node (leafSearch node key) key value)
          freshPN).1.numKeys = (node.numKeys + 1) / 2 ∧
      (leafSplit E (leafStore node (leafSearch node key) key value)
          freshPN).1.rightSiblingPN = freshPN ∧
      leafEntries (leafSplit E (leafStore node (leafSearch node key) key value)
          freshPN).1
        = (leafEntries (leafStore node (leafSearch node key) key value)).take
            ((node.numKeys + 1) / 2) ∧
      ((leafSplit E (leafStore node (leafSearch node key) key value)
          freshPN).2.1).map leafEntries
        = some ((leafEntries (leafStore node (leafSearch node key) key value)).drop
            ((node.numKeys + 1) / 2)) ∧
      ((leafSplit E (leafStore node (leafSearch node key) key value)
          freshPN).2.1).map (fun r => r.rightSiblingPN)
        = some node.rightSiblingPN) := by
  obtain ⟨hn, hsib, hpn⟩ :=
    leafStore_fields node (leafSearch node key) key value
  refine ⟨leafInsert_absent E node key value freshPN habs, hn, ?_, ?_, ?_⟩
  · constructor
    · intro hsp
      by_contra hlt
      rw [leafSplit_no _ _ _ (by omega)] at hsp
      exact Bool.noConfusion hsp
    · intro hge
      obtain ⟨hrec, _⟩ := leafSplit_yes E
        (leafStore node (leafSearch node key) key value) freshPN hE (by omega)
      rw [hrec]
  · intro hlt
    exact leafSplit_no _ _ _ (by omega)
  · intro hge
    obtain ⟨hrec, hlnum, hlsib, _, hlpn, hltake, hrdrop, hrsib, _⟩ :=
      leafSplit_yes E (leafStore node (leafSearch node key) key value) freshPN
        hE (by omega)
    refine ⟨?_, by rw [hlnum, hn], by rw [hlsib], by rw [hltake, hn],
      by rw [hrdrop, hn], by rw [hrsib, hsib]⟩
    rw [hrec, hn, hpn]

open BTreeIdx in
/-- C3 amended witness: the split characterization at the concrete insert of
key 2 into the one-entry leaf `[(1, 10)]` with capacity 2. -/
theorem c3_leaf_insert_split_witness :
    (0 : Nat) < 2 ∧
    (∀ i < c3Leaf.numKeys, getKeyAt c3Leaf i ≠ 2) ∧
    ((leafInsert 2 c3Leaf 2 20 false 99
        = leafSplit 2 (leafStore c3Leaf (leafSearch c3Leaf 2) 2 20) 99) ∧
    (leafStore c3Leaf (leafSearch c3Leaf 2) 2 20).numKeys
        = c3Leaf.numKeys + 1 ∧
    ((leafSplit 2 (leafStore c3Leaf (leafSearch c3Leaf 2) 2 20)
        99).2.2.isSplit = true ↔
      2 ≤ c3Leaf.numKeys + 1) ∧
    (c3Leaf.numKeys + 1 < 2 →
      leafSplit 2 (leafStore c3Leaf (leafSearch c3Leaf 2) 2 20) 99
        = (leafStore c3Leaf (leafSearch c3Leaf 2) 2 20, none,
           ⟨false, 0, 0, 0, none⟩)) ∧
    (2 ≤ c3Leaf.numKeys + 1 →
      (leafSplit 2 (leafStore c3Leaf (leafSearch c3Leaf 2) 2 20)
          99).2.2
        = ⟨true,
           ((leafStore c3Leaf (leafSearch c3Leaf 2) 2 20).cells
             ((c3Leaf.numKeys + 1) / 2)).1,
           c3Leaf.pn, 99, none⟩ ∧
      (leafSplit 2 (leafStore c3Leaf (leafSearch c3Leaf 2) 2 20)
          99).1.numKeys = (c3Leaf.numKeys + 1) / 2 ∧
      (leafSplit 2 (leafStore c3Leaf (leafSearch c3Leaf 2) 2 20)
          99).1.rightSiblingPN = 99 ∧
      leafEntries (leafSplit 2 (leafStore c3Leaf (leafSearch c3Leaf 2) 2 20)
          99).1
        = (leafEntries (leafStore c3Leaf (leafSearch c3Leaf 2) 2 20)).take
            ((c3Leaf.numKeys + 1) / 2) ∧
      ((leafSplit 2 (leafStore c3Leaf (leafSearch c3Leaf 2) 2 20)
          99).2.1).map leafEntries
        = some ((leafEntries (leafStore c3Leaf (leafSearch c3Leaf 2) 2 20)).drop
            ((c3Leaf.numKeys + 1) / 2)) ∧
      ((leafSplit 2 (leafStore c3Leaf (leafSearch c3Leaf 2) 2 20)
          99).2.1).map (fun r => r.rightSiblingPN)
        = some c3Leaf.rightSiblingPN)) :=
  ⟨by decide, by decide,
    c3_leaf_insert_split 2 c3Leaf 2 20 99 (by decide) (by decide)⟩

/-- C9 counterexample: `LeafNode.delete` (node.go:85) reports nothing when the
key is absent — its signature `delete(key int64)` has no error channel at all,
and on an absent key it returns with the node unchanged.  Deleting the absent
key 42 from the one-entry B+-tree leaf `[(1, 10)]` is a silent no-op, so the
B+-tree side of "Update, Delete, and Find each report a NotFound error" fails
for Delete. -/
theorem c9_btree_delete_silent_counterexample :
    BTreeIdx.leafDelete BTreeIdx.c3Leaf 42 = BTreeIdx.c3Leaf := rfl

open HashIdx BTreeIdx in
/-- C9 amended: on a key absent from the index, the extendible hash's Find,
Update and Delete each return their not-found error, and the B+-tree's
update path errors with "cannot update non-existing tuple" (leaving the leaf
unchanged) while its get reports `found = false`; the B+-tree's Delete,
however, silently returns the unchanged leaf and reports no error (it has no
error channel). -/
theorem c9_notfound_on_absent_keys
    (h64 : Int → Nat) (t : HTable) (hkey value : Int) (pn : Int) (b : Bucket)
    (E : Nat) (node : LeafN) (bkey bval freshPN : Int)
    (hb : getBucket t (Hasher h64 hkey t.depth) = Except.ok (pn, b))
    (habsH : ∀ i < b.numKeys, HashIdx.getKeyAt b i ≠ hkey)
    (habsB : ∀ i < node.numKeys, BTreeIdx.getKeyAt node i ≠ bkey) :
    tableFind h64 t hkey = Except.error "find error: entry not found" ∧
    tableUpdate h64 t hkey value
      = Except.error "Can not update nonexistent key value" ∧
    tableDelete h64 t hkey = Except.error "Can not delete nonexistent key" ∧
    leafInsert E node bkey bval true freshPN
      = (node, none,
         ⟨false, 0, 0, 0, some "cannot update non-existing tuple"⟩) ∧
    leafGet node bkey = (0, false) ∧
    leafDelete node bkey = node := by
  have hcond : leafSearch node bkey ≥ node.numKeys ∨
      BTreeIdx.getKeyAt node (leafSearch node bkey) ≠ bkey := by
    rcases Nat.lt_or_ge (leafSearch node bkey) node.numKeys with h | h
    · exact Or.inr (habsB _ h)
    · exact Or.inl h
  have hand : ¬ (leafSearch node bkey < node.numKeys ∧
      BTreeIdx.getKeyAt node (leafSearch node bkey) = bkey) := by
    rintro ⟨h1, h2⟩
    exact habsB _ h1 h2
  refine ⟨tableFind_absent hb habsH, tableUpdate_absent hb habsH,
    tableDelete_absent hb habsH, ?_, ?_, ?_⟩
  · unfold leafInsert
    dsimp only
    rw [if_pos rfl, if_neg hand]
  · unfold leafGet
    dsimp only
    rw [if_pos hcond]
  · unfold leafDelete
    dsimp only
    rw [if_pos hcond]

open HashIdx BTreeIdx in
/-- C9 amended witness: identity hash on the depth-2 table (key 9 hashes to
the empty bucket at page 1), and the one-entry B+-tree leaf `[(1, 10)]` with
the absent key 42. -/
theorem c9_notfound_on_absent_keys_witness :
    (getBucket c1Table (Hasher (fun k => k.toNat) 9 c1Table.depth)
      = Except.ok (1, emptyBucket 2)) ∧
    (∀ i < (emptyBucket 2).numKeys, HashIdx.getKeyAt (emptyBucket 2) i ≠ 9) ∧
    (∀ i < c3Leaf.numKeys, BTreeIdx.getKeyAt c3Leaf i ≠ 42) ∧
    (tableFind (fun k => k.toNat) c1Table 9
        = Except.error "find error: entry not found" ∧
     tableUpdate (fun k => k.toNat) c1Table 9 7
        = Except.error "Can not update nonexistent key value" ∧
     tableDelete (fun k => k.toNat) c1Table 9
        = Except.error "Can not delete nonexistent key" ∧
     leafInsert 2 c3Leaf 42 7 true 99
        = (c3Leaf, none,
           ⟨false, 0, 0, 0, some "cannot update non-existing tuple"⟩) ∧
     leafGet c3Leaf 42 = (0, false) ∧
     leafDelete c3Leaf 42 = c3Leaf) :=
  ⟨rfl, by decide, by decide,
    c9_notfound_on_absent_keys (fun k => k.toNat) c1Table 9 7 1 (emptyBucket 2)
      2 c3Leaf 42 7 99 rfl (by decide) (by decide)⟩

/-- C2: the pager evicts a dirty page without flushing — a code bug.  With an
empty free list and frame 0 (holding page 1, dirty, buffer 77, stale disk
value 11) alone on the unpinned list, `GetPage(2)` must evict: `NewPage`
takes the unpinned head and reuses it with no flush anywhere on the path, so
the call succeeds, disk page 1 still holds the stale 11, and the dirty value
77 is lost (the returned frame now belongs to page 2).  `FlushPage` — which
`NewPage` never calls — would have written 77 to disk page 1. -/
theorem c2_pager_evicts_dirty_without_flush :
    ∃ p1 fr,
      PagerM.getPage PagerM.c2Pager 2 = Except.ok (p1, fr) ∧
      (PagerM.c2Pager.frames 0).dirty = true ∧
      (PagerM.c2Pager.frames 0).pagenum = 1 ∧
      (PagerM.c2Pager.frames 0).data = 77 ∧
      PagerM.c2Pager.free = [] ∧
      PagerM.c2Pager.unpinned = [0] ∧
      PagerM.c2Pager.disk 1 = some 11 ∧
      p1.disk 1 = some 11 ∧
      p1.disk 2 = none ∧
      fr.pagenum = 2 ∧
      (PagerM.flushPage PagerM.c2Pager 0).disk 1 = some 77 :=
  ⟨_, _, rfl, rfl, rfl, rfl, rfl, rfl, rfl, rfl, rfl, rfl, rfl⟩

/-- C8: recovery does not tolerate a duplicate Begin — a code bug.  On the
valid log "checkpoint with active list [7]; start 7" (checkpoint position 0),
the forward pass first calls `tm.Begin(7)` for the checkpoint's active list
and then again for the start record; the second call returns "transaction
already began" (transaction.go:80-89) and `Recover` propagates it instead of
tolerating the duplicate, so recovery fails. -/
theorem c8_recover_fails_on_duplicate_begin :
    RecM.recover (fun s _ _ => Except.ok s)
      (fun _ d => Except.ok d) (fun _ d => Except.ok d) (fun _ d => d)
      [RecM.LogRec.checkpoint [7], RecM.LogRec.start 7] 0
      (⟨(), ⟨[]⟩, []⟩ : ConcM.TM Unit) ()
      = Except.error "transaction already began" ∧
    ConcM.beginTxn (⟨(), ⟨[]⟩, [(7, ⟨[]⟩)]⟩ : ConcM.TM Unit) 7
      = Except.error "transaction already began" :=
  ⟨rfl, rfl⟩
